import Mathlib

/-!
# go-tcp: the connection lifecycle and the command dispatcher of `server/main.go`

A shallow embedding of `handleConnection`, `processRequest` and the seven command
handlers, together with the parts of the Go standard library they call
(`strings`, `strconv`, `unicode`, `unicode/utf8`, `regexp`, `math`).

Conventions of the embedding:

* a Go `string` is the list of its bytes (`GoString`); a byte is a natural number
  below 256;
* a Go `int` is a 64-bit two's-complement integer, embedded in `Int`, and every
  arithmetic result that can leave the range is reduced with `wrap64`;
* a string longer than `maxAlloc` bytes cannot be built: the runtime refuses the
  allocation with a panic (`makeslice: len out of range`,
  `growslice: len out of range`), and `none` stands for a panic.  An allocation
  within that bound is taken to succeed: the memory of the machine is not part of
  the embedding;
* the transport is seen through the calls the handler makes: the lines that the
  successive `scanner.Scan()` calls yield, and the outcome of each `conn.Write`.
-/

namespace GoTcp

/-! ## Bytes, strings and UTF-8 -/

/-- A Go string, as its sequence of bytes. -/
abbrev GoString := List Nat

/-- The replacement character `utf8.RuneError`. -/
def runeError : Nat := 0xFFFD

/-- The conversion `string(r)` of an integer: the UTF-8 encoding of the code point,
and of U+FFFD when `r` is a surrogate or beyond U+10FFFF. -/
def encodeRune (r : Nat) : GoString :=
  if r < 0x80 then [r]
  else if r < 0x800 then [0xC0 + r / 64, 0x80 + r % 64]
  else if (0xD800 ≤ r ∧ r ≤ 0xDFFF) ∨ 0x10FFFF < r then [0xEF, 0xBF, 0xBD]
  else if r < 0x10000 then [0xE0 + r / 4096, 0x80 + r / 64 % 64, 0x80 + r % 64]
  else [0xF0 + r / 262144, 0x80 + r / 4096 % 64, 0x80 + r / 64 % 64, 0x80 + r % 64]

/-- The bytes of a string literal of the source. -/
def str (s : String) : GoString :=
  (s.toList.map fun c => encodeRune c.toNat).flatten

/-- A UTF-8 continuation byte. -/
def isCont (b : Nat) : Bool := decide (0x80 ≤ b ∧ b ≤ 0xBF)

/-- The range accepted for the second byte after the leading byte `b0`
(the `acceptRanges` table of `unicode/utf8`). -/
def acceptsSecond (b0 b1 : Nat) : Bool :=
  if b0 = 0xE0 then decide (0xA0 ≤ b1 ∧ b1 ≤ 0xBF)
  else if b0 = 0xED then decide (0x80 ≤ b1 ∧ b1 ≤ 0x9F)
  else if b0 = 0xF0 then decide (0x90 ≤ b1 ∧ b1 ≤ 0xBF)
  else if b0 = 0xF4 then decide (0x80 ≤ b1 ∧ b1 ≤ 0x8F)
  else isCont b1

/-- The function `utf8.DecodeRuneInString`: the first rune of the string and its
width in bytes; a byte that starts no valid encoding is `(RuneError, 1)`. -/
def decodeRune : GoString → Nat × Nat
  | [] => (runeError, 0)
  | b0 :: rest =>
    if b0 < 0x80 then (b0, 1)
    else if 0xC2 ≤ b0 ∧ b0 ≤ 0xDF then
      match rest with
      | b1 :: _ => if isCont b1 then ((b0 % 32) * 64 + b1 % 64, 2) else (runeError, 1)
      | _ => (runeError, 1)
    else if 0xE0 ≤ b0 ∧ b0 ≤ 0xEF then
      match rest with
      | b1 :: b2 :: _ =>
        if acceptsSecond b0 b1 && isCont b2 then
          ((b0 % 16) * 4096 + (b1 % 64) * 64 + b2 % 64, 3)
        else (runeError, 1)
      | _ => (runeError, 1)
    else if 0xF0 ≤ b0 ∧ b0 ≤ 0xF4 then
      match rest with
      | b1 :: b2 :: b3 :: _ =>
        if acceptsSecond b0 b1 && isCont b2 && isCont b3 then
          ((b0 % 8) * 262144 + (b1 % 64) * 4096 + (b2 % 64) * 64 + b3 % 64, 4)
        else (runeError, 1)
      | _ => (runeError, 1)
    else (runeError, 1)

/-- The runes met by `for _, r := range s`, each with the bytes it occupies.
The first argument bounds the number of runes; `runes` passes the length. -/
def runesAux : Nat → GoString → List (Nat × GoString)
  | 0, _ => []
  | _ + 1, [] => []
  | fuel + 1, b :: rest =>
    ((decodeRune (b :: rest)).1, (b :: rest).take (decodeRune (b :: rest)).2) ::
      runesAux fuel ((b :: rest).drop (decodeRune (b :: rest)).2)

/-- The decomposition of a string into runes, as a `range` loop sees it. -/
def runes (s : GoString) : List (Nat × GoString) := runesAux s.length s

/-- The predicate `unicode.IsSpace`. -/
def unicode.IsSpace (r : Nat) : Bool :=
  decide (r = 0x09 ∨ r = 0x0A ∨ r = 0x0B ∨ r = 0x0C ∨ r = 0x0D ∨ r = 0x20 ∨
    r = 0x85 ∨ r = 0xA0 ∨ r = 0x1680 ∨ (0x2000 ≤ r ∧ r ≤ 0x200A) ∨
    r = 0x2028 ∨ r = 0x2029 ∨ r = 0x202F ∨ r = 0x205F ∨ r = 0x3000)

/-- The predicate `unicode.IsDigit` on `rune(b)` for a byte `b`: below U+0100 the
only decimal digits are `'0'..'9'`. -/
def unicode.IsDigit (r : Nat) : Bool := decide (0x30 ≤ r ∧ r ≤ 0x39)

/-! ## `strings` -/

/-- The splitting loop of `strings.Fields` over the runes of the string: `cur` is
the field being collected. -/
def fieldsAux : List (Nat × GoString) → GoString → List GoString
  | [], cur => if cur = [] then [] else [cur]
  | (r, bs) :: rest, cur =>
    if unicode.IsSpace r then
      (if cur = [] then fieldsAux rest [] else cur :: fieldsAux rest [])
    else fieldsAux rest (cur ++ bs)

/-- The function `strings.Fields`: the maximal runs of runes that are not white space. -/
def strings.Fields (s : GoString) : List GoString := fieldsAux (runes s) []

/-- The splitting loop of `strings.Split` for a one-byte separator. -/
def splitAux (sep : Nat) : GoString → GoString → List GoString
  | [], cur => [cur]
  | b :: rest, cur => if b = sep then cur :: splitAux sep rest [] else splitAux sep rest (cur ++ [b])

/-- The function `strings.Split(s, ",")`, for the one-byte separator given. -/
def strings.Split (s : GoString) (sep : Nat) : List GoString := splitAux sep s []

/-- The function `strings.Join`. -/
def strings.Join : List GoString → GoString → GoString
  | [], _ => []
  | [a], _ => a
  | a :: b :: rest, sep => a ++ sep ++ strings.Join (b :: rest) sep

/-- The bytes of the runes of a decomposition, put back together. -/
def runeBytes (rs : List (Nat × GoString)) : GoString := (rs.map Prod.snd).flatten

/-- The function `strings.TrimSpace`: the string without its leading and trailing
white-space runes. -/
def strings.TrimSpace (s : GoString) : GoString :=
  let left := (runes s).dropWhile fun c => unicode.IsSpace c.1
  let both := (left.reverse.dropWhile fun c => unicode.IsSpace c.1).reverse
  runeBytes both

/-- The largest `int`. -/
def maxInt : Int := 2 ^ 63 - 1

/-- Reduction of an integer to the 64-bit two's-complement range of Go's `int`. -/
def wrap64 (x : Int) : Int := (x + 2 ^ 63) % 2 ^ 64 - 2 ^ 63

/-- The largest object the runtime allocates on a 64-bit platform (`maxAlloc` of
`runtime/malloc.go`, with 48 bits of heap address): a request beyond it panics. -/
def maxAlloc : Nat := 2 ^ 48

/-- The function `strings.Repeat`: `none` is a panic, on a negative count, when
`len(s) * count` overflows `int`, and when the result of `len(s) * count` bytes
is more than the runtime allocates. -/
def strings.Repeat (s : GoString) (count : Int) : Option GoString :=
  if count = 0 then some []
  else if count = 1 then some s
  else if count < 0 then none
  else if maxInt < (s.length : Int) * count then none
  else if s.length = 0 then some []
  else if (maxAlloc : Int) < (s.length : Int) * count then none
  else some (List.replicate count.toNat s).flatten

/-- The method `WriteString` of `strings.Builder`, on the text written so far: the
buffer grows by `append`, which panics when the text no longer fits in an
allocation.  The capacity `append` asks for is at least the new length; what it
reserves beyond that is left out. -/
def strings.Builder.WriteString (buf s : GoString) : Option GoString :=
  if maxAlloc < (buf ++ s).length then none else some (buf ++ s)

/-- The function `strings.ContainsRune`, for a set of ASCII characters. -/
def strings.ContainsRune (s : GoString) (r : Nat) : Bool :=
  (runes s).any fun c => c.1 = r

/-! ## `strconv` and `fmt` -/

/-- The value of a byte as a digit in `strconv.ParseUint`: `0-9`, then the letters
in either case. -/
def digitOfByte (c : Nat) : Option Nat :=
  if 48 ≤ c ∧ c ≤ 57 then some (c - 48)
  else if 97 ≤ c ∧ c ≤ 122 then some (c - 87)
  else if 65 ≤ c ∧ c ≤ 90 then some (c - 55)
  else none

/-- The error of a conversion in `strconv`, if any. -/
inductive NumError where
  /-- No error. -/
  | ok
  /-- The error `strconv.ErrSyntax`. -/
  | errSyntax
  /-- The error `strconv.ErrRange`. -/
  | errRange
  deriving DecidableEq

/-- The loop of `strconv.ParseUint(s, base, 64)` over the bytes still to read, `n`
being the value so far: it stops at the first byte that is no digit of the base
(value 0) and at the first overflow of `uint64` (value `2 ^ 64 - 1`). -/
def parseUintLoop (base : Nat) : GoString → Nat → Nat × NumError
  | [], n => (n, NumError.ok)
  | c :: rest, n =>
    match digitOfByte c with
    | none => (0, NumError.errSyntax)
    | some d =>
      if base ≤ d then (0, NumError.errSyntax)
      else if 2 ^ 64 ≤ n * base + d then (2 ^ 64 - 1, NumError.errRange)
      else parseUintLoop base rest (n * base + d)

/-- The function `strconv.ParseUint(s, base, 64)` for a base from 2 to 36. -/
def strconv.ParseUint (s : GoString) (base : Nat) : Nat × NumError :=
  if s = [] then (0, NumError.errSyntax) else parseUintLoop base s 0

/-- The function `strconv.ParseInt(s, base, 64)` for a base from 2 to 36: the value
and whether an error is returned.  A malformed string gives 0, a value out of range
gives the nearest bound. -/
def strconv.ParseInt (s : GoString) (base : Nat) : Int × Bool :=
  let neg := decide (s.head? = some 45)
  let body := if s.head? = some 45 ∨ s.head? = some 43 then s.drop 1 else s
  let un := strconv.ParseUint body base
  if un.2 = NumError.errSyntax then (0, true)
  else if neg then (if un.1 ≤ 2 ^ 63 then (-(un.1 : Int), false) else (-(2 ^ 63), true))
  else (if un.1 < 2 ^ 63 then ((un.1 : Int), false) else (maxInt, true))

/-- The function `strconv.Atoi`: `ParseInt(s, 10, 0)` on a 64-bit platform. -/
def strconv.Atoi (s : GoString) : Int × Bool := strconv.ParseInt s 10

/-- The decimal digits of a natural number, most significant first; the first
argument bounds the number of digits produced. -/
def natDigitsAux : Nat → Nat → GoString → GoString
  | 0, _, acc => acc
  | fuel + 1, n, acc =>
    if n < 10 then (48 + n) :: acc else natDigitsAux fuel (n / 10) ((48 + n % 10) :: acc)

/-- The decimal representation of a natural number. -/
def natDigits (n : Nat) : GoString := natDigitsAux (n + 1) n []

/-- The function `strconv.Itoa`, which is also what the verb `%d` prints. -/
def strconv.Itoa (i : Int) : GoString :=
  if i < 0 then 45 :: natDigits i.natAbs else natDigits i.toNat

/-! ## `regexp` -/

/-- The call `regexp.MustCompile("\\d+").FindAllString(s, -1)`: the maximal runs of
ASCII digits of `s`, from left to right. -/
def digitRunsAux : GoString → GoString → List GoString
  | [], cur => if cur = [] then [] else [cur]
  | b :: rest, cur =>
    if 48 ≤ b ∧ b ≤ 57 then digitRunsAux rest (cur ++ [b])
    else if cur = [] then digitRunsAux rest [] else cur :: digitRunsAux rest []

/-- The matches of the pattern `\d+` in a string. -/
def findAllDigits (s : GoString) : List GoString := digitRunsAux s []

/-- Membership in the character class `[a-zA-Z0-9!@#$%^&*()_+=-]`. -/
def passwordClass (r : Nat) : Bool :=
  decide ((97 ≤ r ∧ r ≤ 122) ∨ (65 ≤ r ∧ r ≤ 90) ∨ (48 ≤ r ∧ r ≤ 57)) ||
    strings.ContainsRune (str "!@#$%^&*()_+=-") r

/-- The call `re.MatchString(s)` for `^[a-zA-Z0-9!@#$%^&*()_+=-]+$`. -/
def passwordRegexMatch (s : GoString) : Bool :=
  decide (s ≠ []) && (runes s).all fun c => passwordClass c.1

/-! ## `math`: `int(math.Sqrt(float64(n)))` in exact arithmetic -/

/-- The number of low bits an integer has beyond the 53 bits of a `float64`
significand; the first argument bounds the count (64 for an `int`). -/
def excessBits : Nat → Nat → Nat
  | 0, _ => 0
  | fuel + 1, n => if n < 2 ^ 53 then 0 else excessBits fuel (n / 2) + 1

/-- The conversion `float64(n)` of a non-negative `int`: the nearest number with a
53-bit significand, ties to even.  The result is again an integer. -/
def float64OfNat (n : Nat) : Nat :=
  let e := excessBits 64 n
  let q := n / 2 ^ e
  let r := n % 2 ^ e
  if 2 ^ e < 2 * r ∨ (2 * r = 2 ^ e ∧ q % 2 = 1) then (q + 1) * 2 ^ e else q * 2 ^ e

/-- The integer square root of a number below `2 ^ 64`, one bit at a time. -/
def intSqrtAux : Nat → Nat → Nat → Nat
  | 0, _, acc => acc
  | k + 1, n, acc =>
    if (acc + 2 ^ k) * (acc + 2 ^ k) ≤ n then intSqrtAux k n (acc + 2 ^ k)
    else intSqrtAux k n acc

/-- The integer square root of a number below `2 ^ 64`. -/
def intSqrt (n : Nat) : Nat := intSqrtAux 32 n 0

/-- The position of the leading bit of a positive number below `2 ^ 64`. -/
def leadingBit : Nat → Nat → Nat
  | 0, _ => 0
  | fuel + 1, n => if n < 2 then 0 else leadingBit fuel (n / 2) + 1

/-- The value `int(math.Sqrt(x))` for a `float64` `x` that is a non-negative
integer below `2 ^ 64`.  `math.Sqrt` is correctly rounded: when `x` is not a square
its root lies strictly between `s` and `s + 1`, and the rounded root is `s + 1`
exactly when the root is above the midpoint of `s + 1` and the `float64` before it. -/
def floorSqrtFloat (x : Nat) : Nat :=
  let s := intSqrt x
  if s * s = x then s
  else
    let t := s + 1
    let k := leadingBit 64 t
    let j := if t = 2 ^ k then 54 - k else 53 - k
    if (t * 2 ^ j - 1) ^ 2 ≤ x * 4 ^ j then t else s

/-! ## The command handlers -/

/-- The handler `createWords`. -/
def createWords (parts : List GoString) : GoString :=
  if parts.length < 2 then str "Error: usage createWords <string>"
  else
    let parts := parts.drop 1
    let maxLength := parts.foldl (fun maxLength word =>
      if word.length > maxLength then word.length else maxLength) (parts.headD []).length
    ((List.range maxLength).map fun i =>
      (parts.map fun wordStr =>
        if i < wordStr.length then encodeRune (wordStr.getD i 0) else str " ").flatten
        ++ str " ").flatten

/-- The function `isPerfectSquare`.  For a negative `n` the root is NaN, whose
conversion to `int` squares to 0 on every platform, so the comparison fails. -/
def isPerfectSquare (n : Int) : Bool :=
  if n < 0 then false
  else
    let sqrt : Int := floorSqrtFloat (float64OfNat n.toNat)
    decide (wrap64 (sqrt * sqrt) = n)

/-- The handler `countPerfectSquares`. -/
def countPerfectSquares (parts : List GoString) : GoString :=
  if parts.length < 2 then str "Error: usage countPerfectSquares <string>"
  else
    let count := (parts.drop 1).foldl (fun count s =>
      (findAllDigits s).foldl (fun count m =>
        if (strconv.Atoi m).2 = false && isPerfectSquare (strconv.Atoi m).1
        then count + 1 else count) count) 0
    str "Perfect squares count: " ++ strconv.Itoa (count : Nat)

/-- The function `isBinary`. -/
def isBinary (s : GoString) : Bool :=
  (runes s).all fun c => !(c.1 != 48 && c.1 != 49)

/-- The handler `convertBinaryToDecimal`, registered as `convert2to10`. -/
def convertBinaryToDecimal (parts : List GoString) : GoString :=
  if parts.length < 2 then str "Error: usage convertBinaryToDecimal <string>"
  else
    let inputStrings := strings.Split (strings.Join (parts.drop 1) (str " ")) 44
    let result := inputStrings.foldl (fun result s =>
      let s := strings.TrimSpace s
      if isBinary s && (strconv.ParseInt s 2).2 = false
      then result ++ [strconv.Itoa (strconv.ParseInt s 2).1] else result) []
    if result.length = 0 then str "No valid binary strings found."
    else str "Converted values: " ++ strings.Join result (str ", ")

/-- The loop of `decodeText` on the part of `encodedText` from index `i` on, with
the text decoded so far.  The first argument bounds the number of groups;
`decodeText` passes the length of the text.  `none` is a panic, of
`strings.Repeat` or of `decodedText.WriteString`. -/
def decodeLoop : Nat → GoString → GoString → Option GoString
  | 0, _, decodedText => some decodedText
  | fuel + 1, encoded, decodedText =>
    if encoded = [] then some decodedText
    else
      let digits := encoded.takeWhile unicode.IsDigit
      let afterDigits := encoded.dropWhile unicode.IsDigit
      match afterDigits with
      | [] => some (str "Error: invalid encoded text")
      | char :: rest =>
        if digits = [] then some (str "Error: invalid encoded text")
        else if (strconv.Atoi digits).2 ∨ (strconv.Atoi digits).1 < 1 then
          some (str "Error: invalid repetition count")
        else
          match strings.Repeat (encodeRune char) (strconv.Atoi digits).1 with
          | none => none
          | some repeated =>
            match strings.Builder.WriteString decodedText repeated with
            | none => none
            | some written => decodeLoop fuel rest written

/-- The handler `decodeText`. -/
def decodeText (parts : List GoString) : Option GoString :=
  if parts.length < 2 then some (str "Error: usage decodeText <encoded_text>")
  else
    let encodedText := parts.getD 1 []
    decodeLoop encodedText.length encodedText []

/-- The function `isVowel`. -/
def isVowel (c : Nat) : Bool := strings.ContainsRune (str "aeiouAEIOU") c

/-- The pairs `(i, c)` of `for i, c := range word`: each rune with the byte index
where it starts, `off` being the index of the first one. -/
def rangeString : List (Nat × GoString) → Nat → List (Nat × Nat)
  | [], _ => []
  | (r, bs) :: rest, off => (off, r) :: rangeString rest (off + bs.length)

/-- The handler `checkVowels`. -/
def checkVowels (parts : List GoString) : GoString :=
  if parts.length < 2 then str "Error: usage checkVowels <string>"
  else
    let input := strings.Join (parts.drop 1) (str " ")
    let words := strings.Split input 44
    let validWords := words.foldl (fun validWords word =>
      let word := strings.TrimSpace word
      let vowelCount := (rangeString (runes word) 0).foldl (fun vowelCount ic =>
        if ic.1 % 2 = 0 && isVowel ic.2 then vowelCount + 1 else vowelCount) 0
      if vowelCount > 0 && vowelCount % 2 = 0 then validWords ++ [word] else validWords) []
    if validWords.length = 0 then str "Nu sunt cuvinte valide"
    else strings.Join validWords (str " ")

/-- The loop of `sum` over `parts[i]` for the indices `i` it visits, with the
running total. -/
def sumLoop : List GoString → Int → GoString
  | [], sum => str "Suma este: " ++ strconv.Itoa sum
  | part :: rest, sum =>
    match strings.TrimSpace part with
    | [] => sumLoop rest sum
    | first :: more =>
      if (strconv.Atoi (encodeRune first)).2 then str "Error: invalid number in input"
      else
        let newNumStr := strconv.Itoa (strconv.Atoi (encodeRune first)).1 ++ (first :: more)
        sumLoop rest (wrap64 (sum + (strconv.Atoi newNumStr).1))

/-- The handler `sum`: the loop runs over the indices `1 ≤ i < len(parts) - 1`. -/
def sum (parts : List GoString) : GoString :=
  if parts.length < 2 then str "Error: usage sum <num1>, <num2>, ... \t"
  else sumLoop ((parts.take (parts.length - 1)).drop 1) 0

/-- The handler `validPasswords`, registered as `validPass`; its loop runs over
all of `parts`. -/
def validPasswords (parts : List GoString) : GoString :=
  if parts.length < 2 then str "Error: usage validPass <string>"
  else
    let validPasswords := parts.foldl (fun validPasswords password =>
      if passwordRegexMatch password then
        let hasLower := (runes password).any fun c => decide (97 ≤ c.1 ∧ c.1 ≤ 122)
        let hasUpper := (runes password).any fun c => decide (65 ≤ c.1 ∧ c.1 ≤ 90)
        let hasDigit := (runes password).any fun c => decide (48 ≤ c.1 ∧ c.1 ≤ 57)
        let hasSpecial := (runes password).any fun c =>
          strings.ContainsRune (str "!@#$%^&*()_+=-") c.1
        if hasLower && hasUpper && hasDigit && hasSpecial
        then validPasswords ++ [password] else validPasswords
      else validPasswords) []
    strings.Join validPasswords (str ", ")

/-! ## The dispatcher -/

/-- The function `processRequest`; `none` is a panic raised by a handler. -/
def processRequest (request : GoString) : Option GoString :=
  match strings.Fields request with
  | [] => some (str "Error: invalid command")
  | command :: args =>
    if command = str "createWords" then some (createWords (command :: args))
    else if command = str "countPerfectSquares" then
      some (countPerfectSquares (command :: args))
    else if command = str "convert2to10" then
      some (convertBinaryToDecimal (command :: args))
    else if command = str "decodeText" then decodeText (command :: args)
    else if command = str "checkVowels" then some (checkVowels (command :: args))
    else if command = str "sum" then some (sum (command :: args))
    else if command = str "validPass" then some (validPasswords (command :: args))
    else some (str "Error: unknown command")

/-! ## The connection handler -/

/-- The type `Config`. -/
structure Config where
  /-- The field `MaxClients`. -/
  MaxClients : Int

/-- A connection, as `handleConnection` meets it: the lines that the successive
calls of `scanner.Scan()` yield before it returns `false`, and for each call of
`conn.Write`, numbered from 0, whether it returns an error. -/
structure Conn where
  /-- The lines received from the peer. -/
  lines : List GoString
  /-- Whether the write of the given rank fails. -/
  writeFails : Nat → Bool

/-- The critical section at admission (`mutex.Lock()` to `mutex.Unlock()`): the new
value of `*clientCount` and whether the client is accepted. -/
def admission (config : Config) (clientCount : Int) : Int × Bool :=
  if clientCount ≥ config.MaxClients then (clientCount, false)
  else (wrap64 (clientCount + 1), true)

/-- The critical section at session exit: `*clientCount--`. -/
def sessionExit (clientCount : Int) : Int := wrap64 (clientCount - 1)

/-- The progress of a session through its request loop. -/
structure Progress where
  /-- The arguments of the calls of `conn.Write`, in order. -/
  writes : List GoString
  /-- The number of lines taken from the scanner. -/
  scans : Nat
  /-- Whether `processRequest` panicked. -/
  panicked : Bool

/-- The loop `for scanner.Scan() { ... }` over the lines still to come. -/
def requestLoop (writeFails : Nat → Bool) : List GoString → Progress → Progress
  | [], p => p
  | request :: rest, p =>
    match processRequest request with
    | none => { writes := p.writes, scans := p.scans + 1, panicked := true }
    | some response =>
      if writeFails p.writes.length then
        { writes := p.writes ++ [response ++ str "\n"], scans := p.scans + 1,
          panicked := false }
      else
        requestLoop writeFails rest
          { writes := p.writes ++ [response ++ str "\n"], scans := p.scans + 1,
            panicked := false }

/-- What a call of `handleConnection` has done when it ends. -/
structure Outcome where
  /-- The value of `*clientCount`. -/
  clientCount : Int
  /-- The arguments of the calls of `conn.Write`, in order. -/
  writes : List GoString
  /-- The number of lines taken from the scanner. -/
  scans : Nat
  /-- The number of times `*clientCount--` was executed. -/
  releases : Nat
  /-- Whether the function returned; `false` when a panic ended it. -/
  returned : Bool

/-- The function `handleConnection`, run with no other session active. -/
def handleConnection (conn : Conn) (config : Config) (clientCount : Int) : Outcome :=
  if (admission config clientCount).2 = false then
    { clientCount := (admission config clientCount).1,
      writes := [str "Error: Server is full. Try again later.\n"],
      scans := 0, releases := 0, returned := true }
  else
    let clientCount := (admission config clientCount).1
    let welcome := str "Welcome to the server! Please provide your name.\n"
    match conn.lines with
    | [] =>
      { clientCount := sessionExit clientCount, writes := [welcome],
        scans := 0, releases := 1, returned := true }
    | _ :: requests =>
      let p := requestLoop conn.writeFails requests
        { writes := [welcome], scans := 1, panicked := false }
      if p.panicked then
        { clientCount := clientCount, writes := p.writes, scans := p.scans,
          releases := 0, returned := false }
      else
        { clientCount := sessionExit clientCount, writes := p.writes, scans := p.scans,
          releases := 1, returned := true }

/-! ## Concurrent sessions -/

/-- Where a session stands with respect to the shared counter. -/
inductive Phase where
  /-- Before the critical section at admission. -/
  | connecting
  /-- Accepted, `*clientCount--` not yet executed. -/
  | active
  /-- Rejected, or accepted and `*clientCount--` executed. -/
  | closed
  deriving DecidableEq

/-- The shared counter and the sessions started by `main`. -/
structure Server where
  /-- The variable `clientCount` of `main`. -/
  clientCount : Int
  /-- The phase of each session. -/
  sessions : List Phase

/-- The server when `n` connections have been accepted and none has run yet. -/
def Server.start (n : Nat) : Server :=
  { clientCount := 0, sessions := List.replicate n Phase.connecting }

/-- Session `i` takes its next critical section; the mutex makes it atomic.
A session that is closed, or that does not exist, does nothing. -/
def Server.step (config : Config) (s : Server) (i : Nat) : Server :=
  match s.sessions.get? i with
  | some Phase.connecting =>
    { clientCount := (admission config s.clientCount).1,
      sessions := s.sessions.set i
        (if (admission config s.clientCount).2 then Phase.active else Phase.closed) }
  | some Phase.active =>
    { clientCount := sessionExit s.clientCount, sessions := s.sessions.set i Phase.closed }
  | _ => s

/-- The server after the critical sections of a schedule, in order. -/
def Server.run (config : Config) (s : Server) (schedule : List Nat) : Server :=
  schedule.foldl (Server.step config) s

/-! ## Invariants -/

/-- The invariant of the shared counter: it is the number of active sessions and
does not exceed the limit. -/
def Server.Inv (config : Config) (s : Server) : Prop :=
  s.clientCount = (s.sessions.count Phase.active : Int) ∧ s.clientCount ≤ config.MaxClients

/-! ## The usage responses -/

/-- The registered command names, each with the response its handler gives when
`len(parts) < 2`. -/
def usageTable : List (GoString × GoString) :=
  [(str "createWords", str "Error: usage createWords <string>"),
   (str "countPerfectSquares", str "Error: usage countPerfectSquares <string>"),
   (str "convert2to10", str "Error: usage convertBinaryToDecimal <string>"),
   (str "decodeText", str "Error: usage decodeText <encoded_text>"),
   (str "checkVowels", str "Error: usage checkVowels <string>"),
   (str "sum", str "Error: usage sum <num1>, <num2>, ... \t"),
   (str "validPass", str "Error: usage validPass <string>")]

/-- A chunk of the rune decomposition is a single ASCII byte standing for itself,
or is made of bytes from `0x80` up. -/
def ChunkOk (c : Nat × GoString) : Prop :=
  (c.1 < 0x80 ∧ c.2 = [c.1]) ∨ (c.2 ≠ [] ∧ ∀ x ∈ c.2, 0x80 ≤ x)

/-! ## Run-length texts -/

/-- The value of a string of decimal digits, most significant first. -/
def digitsValue (s : GoString) : Nat := s.foldl (fun n b => n * 10 + (b - 48)) 0

/-- The run-length text of a list of pairs (count, byte): for each pair the decimal
numeral of the count, then the byte. -/
def encodeRuns : List (Nat × Nat) → GoString
  | [] => []
  | (c, x) :: rest => natDigits c ++ x :: encodeRuns rest

/-- The text a list of pairs (count, byte) stands for: each byte repeated. -/
def expandRuns : List (Nat × Nat) → GoString
  | [] => []
  | (c, x) :: rest => List.replicate c x ++ expandRuns rest

/-- Run-length encoding: the maximal runs of equal bytes, each with its length. -/
def runLengthEncode : GoString → List (Nat × Nat)
  | [] => []
  | x :: rest =>
    match runLengthEncode rest with
    | [] => [(1, x)]
    | (c, y) :: more => if x = y then (c + 1, y) :: more else (1, x) :: (c, y) :: more

/-- A group of a run-length text: one or more ASCII digits that denote a count from
1 to `2 ^ 63 - 1`, followed by exactly one byte that is not a digit. -/
def IsGroup (g : GoString) : Prop :=
  ∃ ds x, g = ds ++ [x] ∧ ds ≠ [] ∧ (∀ d ∈ ds, unicode.IsDigit d = true) ∧
    unicode.IsDigit x = false ∧ 1 ≤ digitsValue ds ∧ digitsValue ds ≤ 2 ^ 63 - 1

/-- A text that is a concatenation of groups. -/
def WellFormed (t : GoString) : Prop :=
  ∃ gs : List GoString, t = gs.flatten ∧ ∀ g ∈ gs, IsGroup g

/-! ## Specifications of the handlers -/

/-- The greatest length among the words. -/
def maxWordLength (words : List GoString) : Nat := (words.map List.length).foldr max 0

/-- The transposed grid of the words: for each position below the greatest length,
the byte every word has there, a space for a word that is too short, then a space. -/
def transposeGrid (words : List GoString) : GoString :=
  ((List.range (maxWordLength words)).map fun i =>
    (words.map fun w => if i < w.length then w.getD i 0 else 32) ++ [32]).flatten

/-- The bytes a password may hold: letters, digits and `!@#$%^&*()_+=-`. -/
def allowedByte (b : Nat) : Bool :=
  decide ((97 ≤ b ∧ b ≤ 122) ∨ (65 ≤ b ∧ b ≤ 90) ∨ (48 ≤ b ∧ b ≤ 57)) ||
    decide (b ∈ str "!@#$%^&*()_+=-")

/-- A valid password: allowed bytes only, among them a lowercase letter, an uppercase
letter, a digit and one of `!@#$%^&*()_+=-`. -/
def isValidPassword (t : GoString) : Bool :=
  t.all allowedByte &&
    t.any (fun b => decide (97 ≤ b ∧ b ≤ 122)) &&
    t.any (fun b => decide (65 ≤ b ∧ b ≤ 90)) &&
    t.any (fun b => decide (48 ≤ b ∧ b ≤ 57)) &&
    t.any (fun b => decide (b ∈ str "!@#$%^&*()_+=-"))

/-- The test `validPasswords` applies to a field, on its runes. -/
def passwordAccepted (password : GoString) : Bool :=
  passwordRegexMatch password &&
    (((runes password).any fun c => decide (97 ≤ c.1 ∧ c.1 ≤ 122)) &&
      ((runes password).any fun c => decide (65 ≤ c.1 ∧ c.1 ≤ 90)) &&
      ((runes password).any fun c => decide (48 ≤ c.1 ∧ c.1 ≤ 57)) &&
      ((runes password).any fun c => strings.ContainsRune (str "!@#$%^&*()_+=-") c.1))

/-- The value of a string of binary digits, most significant first. -/
def binaryValue (s : GoString) : Nat := s.foldl (fun n b => n * 2 + (b - 48)) 0

/-- A non-empty string made of the characters `0` and `1` only. -/
def isBinaryItem (s : GoString) : Bool :=
  decide (s ≠ []) && s.all fun b => decide (b = 48 ∨ b = 49)

/-- The items of the argument text: the fields after the command name joined by one
space, split at the commas, each piece trimmed. -/
def argumentItems (args : List GoString) : List GoString :=
  (strings.Split (strings.Join args (str " ")) 44).map strings.TrimSpace

/-- The decimal numerals that `convert2to10` lists: those of the items that are
binary and denote a value below `2 ^ 63`, in order. -/
def convertedValues (args : List GoString) : List GoString :=
  ((argumentItems args).filter fun s => isBinaryItem s && decide (binaryValue s < 2 ^ 63)).map
    fun s => natDigits (binaryValue s)

/-- The number of vowels of a word that start at an even byte offset, the index that
`range` gives for each rune. -/
def evenOffsetVowels (word : GoString) : Nat :=
  ((rangeString (runes word) 0).filter fun ic =>
    decide (ic.1 % 2 = 0) && decide (ic.2 ∈ str "aeiouAEIOU")).length

/-- The number of vowels of a word that stand at an even character position, the
characters being counted from 0. -/
def evenPositionVowels (word : GoString) : Nat :=
  (((runes word).map Prod.fst).enum.filter fun ic =>
    decide (ic.1 % 2 = 0) && decide (ic.2 ∈ str "aeiouAEIOU")).length

/-- The words that `checkVowels` keeps: an even, non-zero number of vowels at even
byte offsets. -/
def vowelQualifies (word : GoString) : Bool :=
  decide (0 < evenOffsetVowels word) && decide (evenOffsetVowels word % 2 = 0)

/-- Whether a number is the square of a natural number, by trying every candidate up
to the number itself. -/
def isSquareNumber (v : Nat) : Bool := (List.range (v + 1)).any fun s => s * s == v

/-- The maximal runs of ASCII digits in the fields after the command name, field by
field. -/
def digitRuns (args : List GoString) : List GoString := (args.map findAllDigits).flatten

/-! # Properties -/

/-! ## Machine integers -/

theorem wrap64_of_range (x : Int) (h1 : -(2 ^ 63) ≤ x) (h2 : x < 2 ^ 63) : wrap64 x = x := by
  unfold wrap64
  omega

theorem count_active_set (l : List Phase) (i : Nat) (old new : Phase)
    (h : l.get? i = some old) :
    ((l.set i new).count Phase.active : Int) =
      l.count Phase.active - (if old = Phase.active then 1 else 0)
        + (if new = Phase.active then 1 else 0) := by
  induction l generalizing i with
  | nil => simp at h
  | cons a t ih =>
    cases i with
    | zero =>
      simp at h
      subst h
      simp only [List.set_cons_zero, List.count_cons]
      by_cases h1 : a = Phase.active <;> by_cases h2 : new = Phase.active <;> simp [h1, h2]
    | succ j =>
      simp at h
      have := ih j (by simpa using h)
      simp only [List.set_cons_succ, List.count_cons]
      rw [Nat.cast_add, this]
      push_cast
      ring

theorem count_active_pos (l : List Phase) (i : Nat) (h : l.get? i = some Phase.active) :
    0 < l.count Phase.active := by
  rw [List.count_pos_iff]
  exact List.get?_mem h

/-! ## The admission counter -/

theorem Server.step_inv (config : Config) (hmax : config.MaxClients ≤ maxInt)
    (s : Server) (i : Nat) (h : Server.Inv config s) : Server.Inv config (Server.step config s i) := by
  obtain ⟨hc, hle⟩ := h
  unfold maxInt at hmax
  unfold Server.step
  cases hi : s.sessions.get? i with
  | none => exact ⟨hc, hle⟩
  | some ph =>
    cases ph with
    | connecting =>
      simp only
      unfold admission
      by_cases hfull : s.clientCount ≥ config.MaxClients
      · simp only [hfull, if_true]
        refine ⟨?_, hle⟩
        rw [count_active_set _ _ _ _ hi]
        simp [hc]
      · simp only [hfull, if_false]
        have hnn : (0 : Int) ≤ s.clientCount := by rw [hc]; exact Int.natCast_nonneg _
        have hw : wrap64 (s.clientCount + 1) = s.clientCount + 1 :=
          wrap64_of_range _ (by omega) (by omega)
        rw [hw]
        refine ⟨?_, ?_⟩
        · show s.clientCount + 1 = _
          rw [count_active_set _ _ _ _ hi]
          simp [hc]
        · show s.clientCount + 1 ≤ _
          omega
    | active =>
      simp only
      unfold sessionExit
      have hpos := count_active_pos _ _ hi
      have hw : wrap64 (s.clientCount - 1) = s.clientCount - 1 :=
        wrap64_of_range _ (by omega) (by omega)
      rw [hw]
      refine ⟨?_, ?_⟩
      · show s.clientCount - 1 = _
        rw [count_active_set _ _ _ _ hi]
        simp [hc]
      · show s.clientCount - 1 ≤ _
        omega
    | closed => exact ⟨hc, hle⟩

theorem Server.run_inv (config : Config) (hmax : config.MaxClients ≤ maxInt)
    (schedule : List Nat) (s : Server) (h : Server.Inv config s) :
    Server.Inv config (Server.run config s schedule) := by
  induction schedule generalizing s with
  | nil => exact h
  | cons i rest ih =>
    exact ih _ (Server.step_inv config hmax s i h)

theorem Server.start_inv (config : Config) (h0 : 0 ≤ config.MaxClients) (n : Nat) :
    Server.Inv config (Server.start n) := by
  refine ⟨?_, h0⟩
  simp [Server.start, List.count_replicate]

/-- C1: with `0 ≤ MaxClients` and the counter starting at 0, after every schedule of
the critical sections of any number of sessions (the check-and-increment at
admission, the decrement at exit of a session that was admitted) the counter
satisfies `0 ≤ clientCount ≤ MaxClients`. -/
theorem admission_invariant (config : Config) (n : Nat) (schedule : List Nat)
    (h0 : 0 ≤ config.MaxClients) (hmax : config.MaxClients ≤ maxInt) :
    0 ≤ (Server.run config (Server.start n) schedule).clientCount ∧
      (Server.run config (Server.start n) schedule).clientCount ≤ config.MaxClients := by
  have h := Server.run_inv config hmax schedule _ (Server.start_inv config h0 n)
  refine ⟨?_, h.2⟩
  rw [h.1]
  exact Int.natCast_nonneg _

theorem admission_invariant_witness :
    (0 : Int) ≤ (Config.mk 2).MaxClients ∧ (Config.mk 2).MaxClients ≤ maxInt ∧
    (Server.run (Config.mk 2) (Server.start 4) [0, 1, 2, 0, 3, 2, 1, 3]).clientCount = 0 ∧
    (Server.run (Config.mk 2) (Server.start 4) [0, 1, 2, 0, 3]).clientCount = 2 ∧
    0 ≤ (Server.run (Config.mk 2) (Server.start 4) [0, 1, 2, 0, 3]).clientCount ∧
      (Server.run (Config.mk 2) (Server.start 4) [0, 1, 2, 0, 3]).clientCount ≤ (Config.mk 2).MaxClients :=
  ⟨by decide, by decide, by decide, by decide,
    admission_invariant (Config.mk 2) 4 [0, 1, 2, 0, 3] (by decide) (by decide)⟩

/-! ## One session -/

/-- C2: a call of `handleConnection` made while `clientCount ≥ MaxClients` writes the
rejection line and nothing else, takes no line from the peer, and leaves
`clientCount` unchanged. -/
theorem rejection_at_capacity (conn : Conn) (config : Config) (clientCount : Int)
    (h : clientCount ≥ config.MaxClients) :
    (handleConnection conn config clientCount).writes =
        [str "Error: Server is full. Try again later." ++ str "\n"] ∧
      (handleConnection conn config clientCount).scans = 0 ∧
      (handleConnection conn config clientCount).clientCount = clientCount ∧
      (handleConnection conn config clientCount).releases = 0 ∧
      (handleConnection conn config clientCount).returned = true := by
  have hadm : admission config clientCount = (clientCount, false) := by
    unfold admission
    simp [h]
  unfold handleConnection
  simp only [hadm, if_true]
  refine ⟨?_, ?_, ?_, ?_, ?_⟩ <;> trivial

theorem rejection_at_capacity_witness :
    (2 : Int) ≥ (Config.mk 2).MaxClients ∧
    (handleConnection ⟨[str "ann", str "sum 1 2"], fun _ => false⟩ (Config.mk 2) 2).writes =
        [str "Error: Server is full. Try again later." ++ str "\n"] ∧
      (handleConnection ⟨[str "ann", str "sum 1 2"], fun _ => false⟩ (Config.mk 2) 2).scans = 0 ∧
      (handleConnection ⟨[str "ann", str "sum 1 2"], fun _ => false⟩ (Config.mk 2) 2).clientCount = 2 ∧
      (handleConnection ⟨[str "ann", str "sum 1 2"], fun _ => false⟩ (Config.mk 2) 2).releases = 0 ∧
      (handleConnection ⟨[str "ann", str "sum 1 2"], fun _ => false⟩ (Config.mk 2) 2).returned = true :=
  ⟨by decide, rejection_at_capacity ⟨[str "ann", str "sum 1 2"], fun _ => false⟩ (Config.mk 2) 2 (by decide)⟩

/-- The request loop does not panic when every request is answered. -/
theorem requestLoop_panicked (writeFails : Nat → Bool) (requests : List GoString)
    (h : ∀ r ∈ requests, processRequest r ≠ none) (p : Progress) (hp : p.panicked = false) :
    (requestLoop writeFails requests p).panicked = false := by
  induction requests generalizing p with
  | nil => exact hp
  | cons r rest ih =>
    unfold requestLoop
    cases hr : processRequest r with
    | none => exact absurd hr (h r (List.mem_cons_self _ _))
    | some resp =>
      simp only
      split
      · rfl
      · exact ih (fun r' hr' => h r' (List.mem_cons_of_mem _ hr')) _ rfl

theorem admission_accepts (config : Config) (clientCount : Int)
    (h : clientCount < config.MaxClients) :
    admission config clientCount = (wrap64 (clientCount + 1), true) := by
  unfold admission
  have : ¬ clientCount ≥ config.MaxClients := by omega
  simp [this]

theorem sessionExit_admission (config : Config) (clientCount : Int)
    (hadm : clientCount < config.MaxClients) (hlo : -(2 ^ 63) ≤ clientCount)
    (hmax : config.MaxClients ≤ maxInt) :
    sessionExit (wrap64 (clientCount + 1)) = clientCount := by
  unfold maxInt at hmax
  unfold sessionExit
  rw [wrap64_of_range (clientCount + 1) (by omega) (by omega)]
  rw [wrap64_of_range _ (by omega) (by omega)]
  omega

/-- An admitted session all of whose requests are answered returns after exactly
one decrement, whatever the writes do: the counter is back to its value on entry. -/
theorem release_once_of_answered (conn : Conn) (config : Config) (clientCount : Int)
    (hadm : clientCount < config.MaxClients) (hlo : -(2 ^ 63) ≤ clientCount)
    (hmax : config.MaxClients ≤ maxInt)
    (hans : ∀ r ∈ conn.lines.drop 1, processRequest r ≠ none) :
    (handleConnection conn config clientCount).returned = true ∧
      (handleConnection conn config clientCount).releases = 1 ∧
      (handleConnection conn config clientCount).clientCount = clientCount := by
  unfold handleConnection
  rw [admission_accepts config clientCount hadm]
  simp only [Bool.true_eq_false, if_false]
  cases hl : conn.lines with
  | nil => exact ⟨rfl, rfl, sessionExit_admission config clientCount hadm hlo hmax⟩
  | cons name requests =>
    simp only
    rw [hl] at hans
    rw [requestLoop_panicked conn.writeFails requests (by simpa using hans) _ rfl]
    exact ⟨rfl, rfl, sessionExit_admission config clientCount hadm hlo hmax⟩

/-- C3: the session `["ann", "decodeText 4611686018427387904\xff"]`, admitted with
`clientCount = 0`: `processRequest` panics in `strings.Repeat`, `handleConnection`
does not return and has executed no decrement, so the counter stays at 1. -/
theorem release_missed_on_panic :
    processRequest (str "decodeText 4611686018427387904" ++ [0xFF]) = none ∧
    (handleConnection ⟨[str "ann", str "decodeText 4611686018427387904" ++ [0xFF]], fun _ => false⟩
      (Config.mk 1) 0).returned = false ∧
    (handleConnection ⟨[str "ann", str "decodeText 4611686018427387904" ++ [0xFF]], fun _ => false⟩
      (Config.mk 1) 0).releases = 0 ∧
    (handleConnection ⟨[str "ann", str "decodeText 4611686018427387904" ++ [0xFF]], fun _ => false⟩
      (Config.mk 1) 0).clientCount = 1 := by
  decide

/-- C4, as stated, fails for an empty first line: the session `["", "hello"]` is
answered `Error: unknown command` after the welcome line, two lines being read. -/
theorem empty_name_enters_request_loop :
    (handleConnection ⟨[str "", str "hello"], fun _ => false⟩ (Config.mk 1) 0).writes =
      [str "Welcome to the server! Please provide your name.\n",
        str "Error: unknown command\n"] ∧
    (handleConnection ⟨[str "", str "hello"], fun _ => false⟩ (Config.mk 1) 0).scans = 2 ∧
    ¬ ((handleConnection ⟨[str "", str "hello"], fun _ => false⟩ (Config.mk 1) 0).writes =
        [str "Welcome to the server! Please provide your name.\n"] ∧
      (handleConnection ⟨[str "", str "hello"], fun _ => false⟩ (Config.mk 1) 0).scans ≤ 1) := by
  decide

/-- C4, amended: an admitted session whose first line is absent writes the welcome
line only, reads no line, and releases its slot; an empty first line is handled
exactly as any other name. -/
theorem absent_name_closes (config : Config) (clientCount : Int) (writeFails : Nat → Bool)
    (name : GoString) (rest : List GoString)
    (hadm : clientCount < config.MaxClients) (hlo : -(2 ^ 63) ≤ clientCount)
    (hmax : config.MaxClients ≤ maxInt) :
    ((handleConnection ⟨[], writeFails⟩ config clientCount).writes =
        [str "Welcome to the server! Please provide your name.\n"] ∧
      (handleConnection ⟨[], writeFails⟩ config clientCount).scans = 0 ∧
      (handleConnection ⟨[], writeFails⟩ config clientCount).releases = 1 ∧
      (handleConnection ⟨[], writeFails⟩ config clientCount).clientCount = clientCount ∧
      (handleConnection ⟨[], writeFails⟩ config clientCount).returned = true) ∧
    handleConnection ⟨[] :: rest, writeFails⟩ config clientCount =
      handleConnection ⟨name :: rest, writeFails⟩ config clientCount := by
  constructor
  · unfold handleConnection
    rw [admission_accepts config clientCount hadm]
    simp only [Bool.true_eq_false, if_false]
    exact ⟨trivial, trivial, trivial, sessionExit_admission config clientCount hadm hlo hmax, trivial⟩
  · rfl

theorem absent_name_closes_witness :
    ((0 : Int) < (Config.mk 3).MaxClients ∧ -(2 ^ 63) ≤ (0 : Int) ∧ (Config.mk 3).MaxClients ≤ maxInt) ∧
    ((handleConnection ⟨[], fun _ => false⟩ (Config.mk 3) 0).writes =
        [str "Welcome to the server! Please provide your name.\n"] ∧
      (handleConnection ⟨[], fun _ => false⟩ (Config.mk 3) 0).scans = 0 ∧
      (handleConnection ⟨[], fun _ => false⟩ (Config.mk 3) 0).releases = 1 ∧
      (handleConnection ⟨[], fun _ => false⟩ (Config.mk 3) 0).clientCount = 0 ∧
      (handleConnection ⟨[], fun _ => false⟩ (Config.mk 3) 0).returned = true) ∧
    handleConnection ⟨[] :: [str "sum 1 2 3"], fun _ => false⟩ (Config.mk 3) 0 =
      handleConnection ⟨str "ann" :: [str "sum 1 2 3"], fun _ => false⟩ (Config.mk 3) 0 :=
  ⟨by decide, absent_name_closes (Config.mk 3) 0 (fun _ => false) (str "ann") [str "sum 1 2 3"]
    (by decide) (by decide) (by decide)⟩

theorem requestLoop_answered (writeFails : Nat → Bool) (hwf : ∀ k, writeFails k = false)
    (requests responses : List GoString)
    (hresp : requests.map processRequest = responses.map some) (p : Progress)
    (hp : p.panicked = false) :
    (requestLoop writeFails requests p).writes =
        p.writes ++ responses.map (fun r => r ++ str "\n") ∧
      (requestLoop writeFails requests p).scans = p.scans + requests.length ∧
      (requestLoop writeFails requests p).panicked = false := by
  induction requests generalizing responses p with
  | nil =>
    cases responses with
    | nil => simp [requestLoop, hp]
    | cons a t => simp at hresp
  | cons r rest ih =>
    cases responses with
    | nil => simp at hresp
    | cons a t =>
      simp only [List.map_cons, List.cons.injEq] at hresp
      obtain ⟨h1, h2⟩ := hresp
      unfold requestLoop
      rw [h1]
      simp only [hwf, Bool.false_eq_true, if_false]
      obtain ⟨ih1, ih2, ih3⟩ := ih t h2
        { writes := p.writes ++ [a ++ str "\n"], scans := p.scans + 1, panicked := false } rfl
      refine ⟨?_, ?_, ?_⟩
      · rw [ih1]
        simp
      · rw [ih2]
        simp only [List.length_cons]
        omega
      · rw [ih3]

/-- An admitted session with lines `name, r1, ..., rn`, no write failure, and every
request answered, `processRequest ri = some (responses i)`, writes the welcome line
followed by the responses in order, each with its line terminator; the name gets no
response. -/
theorem one_response_per_request (config : Config) (clientCount : Int)
    (writeFails : Nat → Bool) (name : GoString) (requests responses : List GoString)
    (hadm : clientCount < config.MaxClients) (hwf : ∀ k, writeFails k = false)
    (hresp : requests.map processRequest = responses.map some) :
    (handleConnection ⟨name :: requests, writeFails⟩ config clientCount).writes =
        str "Welcome to the server! Please provide your name.\n" ::
          responses.map (fun r => r ++ str "\n") ∧
      (handleConnection ⟨name :: requests, writeFails⟩ config clientCount).scans =
        1 + requests.length ∧
      (handleConnection ⟨name :: requests, writeFails⟩ config clientCount).returned = true := by
  obtain ⟨h1, h2, h3⟩ := requestLoop_answered writeFails hwf requests responses hresp
    { writes := [str "Welcome to the server! Please provide your name.\n"], scans := 1,
      panicked := false } rfl
  unfold handleConnection
  rw [admission_accepts config clientCount hadm]
  simp only [Bool.true_eq_false, if_false]
  rw [h3]
  simp only [Bool.false_eq_true, if_false]
  exact ⟨by rw [h1]; rfl, h2, trivial⟩

theorem one_response_per_request_witness :
    ((0 : Int) < (Config.mk 1).MaxClients ∧ (∀ k, (fun _ : Nat => false) k = false) ∧
      [str "sum 12 34 56", str "decodeText 3a2b", str ""].map processRequest =
        [str "Suma este: 446", str "aaabb", str "Error: invalid command"].map some) ∧
    ((handleConnection ⟨str "ann" :: [str "sum 12 34 56", str "decodeText 3a2b", str ""],
        fun _ => false⟩ (Config.mk 1) 0).writes =
        str "Welcome to the server! Please provide your name.\n" ::
          [str "Suma este: 446", str "aaabb", str "Error: invalid command"].map
            (fun r => r ++ str "\n") ∧
      (handleConnection ⟨str "ann" :: [str "sum 12 34 56", str "decodeText 3a2b", str ""],
        fun _ => false⟩ (Config.mk 1) 0).scans =
        1 + [str "sum 12 34 56", str "decodeText 3a2b", str ""].length ∧
      (handleConnection ⟨str "ann" :: [str "sum 12 34 56", str "decodeText 3a2b", str ""],
        fun _ => false⟩ (Config.mk 1) 0).returned = true) :=
  ⟨⟨by decide, fun _ => rfl, by decide⟩,
    one_response_per_request (Config.mk 1) 0 (fun _ => false) (str "ann")
      [str "sum 12 34 56", str "decodeText 3a2b", str ""]
      [str "Suma este: 446", str "aaabb", str "Error: invalid command"]
      (by decide) (fun _ => rfl) (by decide)⟩

/-- C5: the session `["ann", "decodeText 4611686018427387904\xff", "sum 1 2 3"]`,
admitted with no write failure: the first request makes `processRequest` panic, so
the welcome line is all that is written and the third line is never read; neither
request gets its response line, though `sum 1 2 3` by itself is answered. -/
theorem responses_lost_on_panic :
    (handleConnection ⟨[str "ann", str "decodeText 4611686018427387904" ++ [0xFF],
        str "sum 1 2 3"], fun _ => false⟩ (Config.mk 1) 0).writes =
      [str "Welcome to the server! Please provide your name.\n"] ∧
    (handleConnection ⟨[str "ann", str "decodeText 4611686018427387904" ++ [0xFF],
        str "sum 1 2 3"], fun _ => false⟩ (Config.mk 1) 0).scans = 2 ∧
    (handleConnection ⟨[str "ann", str "decodeText 4611686018427387904" ++ [0xFF],
        str "sum 1 2 3"], fun _ => false⟩ (Config.mk 1) 0).returned = false ∧
    processRequest (str "sum 1 2 3") = some (str "Suma este: 33") ∧
    (handleConnection ⟨[str "ann", str "sum 1 2 3"], fun _ => false⟩ (Config.mk 1) 0).writes =
      [str "Welcome to the server! Please provide your name.\n", str "Suma este: 33\n"] := by
  decide

/-! ## The dispatcher -/

/-- C6: a request whose first field is none of the seven registered names, compared
byte for byte, is answered `Error: unknown command`, whatever its other fields. -/
theorem unknown_command (request command : GoString) (args : List GoString)
    (hf : strings.Fields request = command :: args)
    (hc : command ∉ [str "createWords", str "countPerfectSquares", str "convert2to10",
      str "decodeText", str "checkVowels", str "sum", str "validPass"]) :
    processRequest request = some (str "Error: unknown command") := by
  simp only [List.mem_cons, List.mem_singleton, List.not_mem_nil, not_or, or_false] at hc
  obtain ⟨h1, h2, h3, h4, h5, h6, h7⟩ := hc
  unfold processRequest
  rw [hf]
  simp only [h1, h2, h3, h4, h5, h6, h7, if_false]

theorem unknown_command_witness :
    (strings.Fields (str " Sum 12 34") = str "Sum" :: [str "12", str "34"] ∧
      str "Sum" ∉ [str "createWords", str "countPerfectSquares", str "convert2to10",
        str "decodeText", str "checkVowels", str "sum", str "validPass"]) ∧
    processRequest (str " Sum 12 34") = some (str "Error: unknown command") :=
  ⟨by decide, unknown_command (str " Sum 12 34") (str "Sum") [str "12", str "34"]
    (by decide) (by decide)⟩

/-- C7: for each registered name `c`, a request whose only field is `c` is answered
with the usage response of `c`, which is fixed by `c` alone and starts with
`Error: usage `. -/
theorem missing_argument (request c u : GoString) (hc : (c, u) ∈ usageTable)
    (hf : strings.Fields request = [c]) :
    processRequest request = some u ∧ str "Error: usage " <+: u := by
  unfold processRequest
  rw [hf]
  simp only [usageTable, List.mem_cons, List.mem_singleton, Prod.mk.injEq, List.not_mem_nil,
    or_false] at hc
  rcases hc with ⟨rfl, rfl⟩ | ⟨rfl, rfl⟩ | ⟨rfl, rfl⟩ | ⟨rfl, rfl⟩ | ⟨rfl, rfl⟩ | ⟨rfl, rfl⟩ |
    ⟨rfl, rfl⟩ <;> decide

theorem missing_argument_witness :
    ((str "sum", str "Error: usage sum <num1>, <num2>, ... \t") ∈ usageTable ∧
      strings.Fields (str "  sum \t") = [str "sum"]) ∧
    processRequest (str "  sum \t") = some (str "Error: usage sum <num1>, <num2>, ... \t") ∧
      str "Error: usage " <+: str "Error: usage sum <num1>, <num2>, ... \t" :=
  ⟨by decide, missing_argument (str "  sum \t") (str "sum")
    (str "Error: usage sum <num1>, <num2>, ... \t") (by decide) (by decide)⟩

/-- The usage table lists the seven registered names, in the order of the dispatcher. -/
theorem usageTable_names :
    usageTable.map Prod.fst = [str "createWords", str "countPerfectSquares", str "convert2to10",
      str "decodeText", str "checkVowels", str "sum", str "validPass"] := by
  decide

/-! ## Runes -/

theorem decodeRune_ascii (b : Nat) (rest : GoString) (h : b < 0x80) :
    decodeRune (b :: rest) = (b, 1) := by
  simp [decodeRune, h]

theorem decodeRune_high (b : Nat) (rest : GoString) (h : 0x80 ≤ b) :
    1 ≤ (decodeRune (b :: rest)).2 ∧
      ∀ x ∈ (b :: rest).take (decodeRune (b :: rest)).2, 0x80 ≤ x := by
  have hb : ¬ b < 0x80 := by omega
  rcases rest with _ | ⟨b1, _ | ⟨b2, _ | ⟨b3, rest⟩⟩⟩ <;>
    simp only [decodeRune, hb, if_false] <;>
    split_ifs <;>
    simp_all [isCont, acceptsSecond] <;>
    (try split_ifs at * <;> simp_all) <;> omega

theorem runesAux_chunkOk (fuel : Nat) (s : GoString) : ∀ c ∈ runesAux fuel s, ChunkOk c := by
  induction fuel generalizing s with
  | zero => simp [runesAux]
  | succ n ih =>
    cases s with
    | nil => simp [runesAux]
    | cons b rest =>
      intro c hc
      simp only [runesAux, List.mem_cons] at hc
      rcases hc with rfl | hc
      · by_cases hb : b < 0x80
        · left
          rw [decodeRune_ascii b rest hb]
          exact ⟨hb, rfl⟩
        · right
          obtain ⟨h1, h2⟩ := decodeRune_high b rest (by omega)
          refine ⟨?_, h2⟩
          cases hw : (decodeRune (b :: rest)).2 with
          | zero => omega
          | succ k => simp
      · exact ih _ c hc

theorem runesAux_bytes_mem (fuel : Nat) (s : GoString) :
    ∀ c ∈ runesAux fuel s, ∀ x ∈ c.2, x ∈ s := by
  induction fuel generalizing s with
  | zero => simp [runesAux]
  | succ n ih =>
    cases s with
    | nil => simp [runesAux]
    | cons b rest =>
      intro c hc x hx
      simp only [runesAux, List.mem_cons] at hc
      rcases hc with rfl | hc
      · exact List.mem_of_mem_take hx
      · exact List.mem_of_mem_drop (ih _ c hc x hx)

/-! ## Fields -/

theorem fieldsAux_mem (P : Nat → Prop) (chunks : List (Nat × GoString)) (cur : GoString)
    (hchunks : ∀ c ∈ chunks, unicode.IsSpace c.1 = false → ∀ x ∈ c.2, P x)
    (hcur : ∀ x ∈ cur, P x) :
    ∀ t ∈ fieldsAux chunks cur, ∀ x ∈ t, P x := by
  induction chunks generalizing cur with
  | nil =>
    intro t ht
    simp only [fieldsAux] at ht
    split_ifs at ht with h
    · simp at ht
    · simp only [List.mem_singleton] at ht
      subst ht
      exact hcur
  | cons c rest ih =>
    obtain ⟨r, bs⟩ := c
    intro t ht
    simp only [fieldsAux] at ht
    have hrest : ∀ c ∈ rest, unicode.IsSpace c.1 = false → ∀ x ∈ c.2, P x :=
      fun c hc => hchunks c (List.mem_cons_of_mem _ hc)
    split_ifs at ht with h1 h2
    · exact ih [] hrest (by simp) t ht
    · simp only [List.mem_cons] at ht
      rcases ht with rfl | ht
      · exact hcur
      · exact ih [] hrest (by simp) t ht
    · refine ih (cur ++ bs) hrest ?_ t ht
      intro x hx
      simp only [List.mem_append] at hx
      rcases hx with hx | hx
      · exact hcur x hx
      · exact hchunks (r, bs) (List.mem_cons_self _ _) (by simpa using h1) x hx

/-- No field holds an ASCII white-space byte, and every byte of a field is a byte of
the string. -/
theorem fields_bytes (s : GoString) :
    ∀ t ∈ strings.Fields s, ∀ x ∈ t, x ∈ s ∧ ¬ (x < 0x80 ∧ unicode.IsSpace x = true) := by
  unfold strings.Fields runes
  apply fieldsAux_mem
  · intro c hc hsp x hx
    refine ⟨runesAux_bytes_mem _ _ c hc x hx, ?_⟩
    rcases runesAux_chunkOk _ _ c hc with ⟨h1, h2⟩ | ⟨_, h2⟩
    · rw [h2] at hx
      simp only [List.mem_singleton] at hx
      subst hx
      simp [hsp]
    · have := h2 x hx
      omega
  · simp

theorem fields_newline (s : GoString) : ∀ t ∈ strings.Fields s, 10 ∉ t := by
  intro t ht h
  exact (fields_bytes s t ht 10 h).2 ⟨by decide, by decide⟩

theorem fields_space (s : GoString) : ∀ t ∈ strings.Fields s, 32 ∉ t := by
  intro t ht h
  exact (fields_bytes s t ht 32 h).2 ⟨by decide, by decide⟩

/-! ## Bytes of the library results -/

theorem foldl_inv {α β : Type} (P : β → Prop) (f : β → α → β) (l : List α) (b : β)
    (h0 : P b) (hstep : ∀ acc, P acc → ∀ x ∈ l, P (f acc x)) : P (l.foldl f b) := by
  induction l generalizing b with
  | nil => exact h0
  | cons a t ih =>
    simp only [List.foldl_cons]
    exact ih _ (hstep b h0 a (List.mem_cons_self _ _))
      (fun acc hacc x hx => hstep acc hacc x (List.mem_cons_of_mem _ hx))

theorem natDigitsAux_bytes (fuel n : Nat) (acc : GoString) :
    ∀ b ∈ natDigitsAux fuel n acc, b ∈ acc ∨ (48 ≤ b ∧ b ≤ 57) := by
  induction fuel generalizing n acc with
  | zero => intro b hb; exact Or.inl hb
  | succ k ih =>
    intro b hb
    simp only [natDigitsAux] at hb
    split_ifs at hb with h
    · simp only [List.mem_cons] at hb
      rcases hb with rfl | hb
      · right; omega
      · exact Or.inl hb
    · rcases ih _ _ b hb with h1 | h1
      · simp only [List.mem_cons] at h1
        rcases h1 with rfl | h1
        · right; omega
        · exact Or.inl h1
      · exact Or.inr h1

theorem itoa_bytes (i : Int) : ∀ b ∈ strconv.Itoa i, b = 45 ∨ (48 ≤ b ∧ b ≤ 57) := by
  intro b hb
  unfold strconv.Itoa natDigits at hb
  split_ifs at hb
  · simp only [List.mem_cons] at hb
    rcases hb with rfl | hb
    · exact Or.inl rfl
    · rcases natDigitsAux_bytes _ _ _ b hb with h | h
      · simp at h
      · exact Or.inr h
  · rcases natDigitsAux_bytes _ _ _ b hb with h | h
    · simp at h
    · exact Or.inr h

theorem join_bytes (l : List GoString) (sep : GoString) :
    ∀ b ∈ strings.Join l sep, b ∈ sep ∨ ∃ x ∈ l, b ∈ x := by
  induction l with
  | nil => simp [strings.Join]
  | cons a t ih =>
    cases t with
    | nil =>
      intro b hb
      simp only [strings.Join] at hb
      exact Or.inr ⟨a, List.mem_cons_self _ _, hb⟩
    | cons c t' =>
      intro b hb
      simp only [strings.Join, List.mem_append] at hb
      rcases hb with (hb | hb) | hb
      · exact Or.inr ⟨a, List.mem_cons_self _ _, hb⟩
      · exact Or.inl hb
      · rcases ih b hb with h | ⟨x, hx, hbx⟩
        · exact Or.inl h
        · exact Or.inr ⟨x, List.mem_cons_of_mem _ hx, hbx⟩

theorem splitAux_bytes (sep : Nat) (s cur : GoString) :
    ∀ x ∈ splitAux sep s cur, ∀ b ∈ x, b ∈ cur ∨ b ∈ s := by
  induction s generalizing cur with
  | nil =>
    intro x hx b hb
    simp only [splitAux, List.mem_singleton] at hx
    subst hx
    exact Or.inl hb
  | cons a t ih =>
    intro x hx b hb
    simp only [splitAux] at hx
    split_ifs at hx with h
    · simp only [List.mem_cons] at hx
      rcases hx with rfl | hx
      · exact Or.inl hb
      · rcases ih [] x hx b hb with h1 | h1
        · simp at h1
        · exact Or.inr (List.mem_cons_of_mem _ h1)
    · rcases ih _ x hx b hb with h1 | h1
      · simp only [List.mem_append, List.mem_singleton] at h1
        rcases h1 with h1 | rfl
        · exact Or.inl h1
        · exact Or.inr (List.mem_cons_self _ _)
      · exact Or.inr (List.mem_cons_of_mem _ h1)

theorem split_bytes (s : GoString) (sep : Nat) :
    ∀ x ∈ strings.Split s sep, ∀ b ∈ x, b ∈ s := by
  intro x hx b hb
  rcases splitAux_bytes sep s [] x hx b hb with h | h
  · simp at h
  · exact h

theorem trimSpace_bytes (s : GoString) : ∀ b ∈ strings.TrimSpace s, b ∈ s := by
  intro b hb
  simp only [strings.TrimSpace, runeBytes, List.mem_flatten, List.mem_map] at hb
  obtain ⟨l, ⟨c, hc, rfl⟩, hbl⟩ := hb
  rw [List.mem_reverse] at hc
  have h1 := (List.dropWhile_sublist _).subset hc
  rw [List.mem_reverse] at h1
  have h2 := (List.dropWhile_sublist _).subset h1
  exact runesAux_bytes_mem _ _ c h2 b hbl

theorem encodeRune_bytes (r : Nat) : ∀ x ∈ encodeRune r, x = r ∨ 0x80 ≤ x := by
  intro x hx
  unfold encodeRune at hx
  split_ifs at hx <;> simp at hx <;> omega

theorem repeat_bytes (s : GoString) (count : Int) (r : GoString)
    (h : strings.Repeat s count = some r) : ∀ x ∈ r, x ∈ s := by
  unfold strings.Repeat at h
  split_ifs at h <;> simp only [Option.some.injEq] at h <;> subst h
  · simp
  · simp
  · simp
  · intro x hx
    simp only [List.mem_flatten] at hx
    obtain ⟨l, hl, hxl⟩ := hx
    rw [List.eq_of_mem_replicate hl] at hxl
    exact hxl

theorem writeString_eq (buf s w : GoString)
    (h : strings.Builder.WriteString buf s = some w) :
    w = buf ++ s ∧ (buf ++ s).length ≤ maxAlloc := by
  unfold strings.Builder.WriteString at h
  split_ifs at h with h1
  simp only [Option.some.injEq] at h
  exact ⟨h.symm, by omega⟩

theorem writeString_of_le (buf s : GoString) (h : (buf ++ s).length ≤ maxAlloc) :
    strings.Builder.WriteString buf s = some (buf ++ s) := by
  unfold strings.Builder.WriteString
  rw [if_neg (by omega)]

/-! ## No handler writes a line terminator -/

theorem createWords_newline (parts : List GoString) (h : ∀ t ∈ parts, 10 ∉ t) :
    10 ∉ createWords parts := by
  unfold createWords
  split_ifs
  · decide
  · intro hmem
    simp only [List.mem_flatten, List.mem_map, List.mem_range] at hmem
    obtain ⟨l, ⟨i, _, rfl⟩, hl⟩ := hmem
    simp only [List.mem_append, List.mem_flatten, List.mem_map] at hl
    rcases hl with ⟨l', ⟨w, hw, rfl⟩, hl'⟩ | hl
    · split_ifs at hl' with hi
      · rcases encodeRune_bytes _ 10 hl' with h1 | h1
        · have hw' : w ∈ parts := List.mem_of_mem_drop hw
          apply h w hw'
          rw [h1, List.getD_eq_getElem _ _ hi]
          exact List.getElem_mem _
        · omega
      · revert hl'
        decide
    · revert hl
      decide

theorem countPerfectSquares_newline (parts : List GoString) :
    10 ∉ countPerfectSquares parts := by
  unfold countPerfectSquares
  split_ifs
  · decide
  · intro hmem
    simp only [List.mem_append] at hmem
    rcases hmem with h | h
    · revert h
      decide
    · rcases itoa_bytes _ 10 h with h1 | h1 <;> omega

theorem convertBinaryToDecimal_newline (parts : List GoString) :
    10 ∉ convertBinaryToDecimal parts := by
  unfold convertBinaryToDecimal
  by_cases hlen : parts.length < 2
  · rw [if_pos hlen]
    decide
  · rw [if_neg hlen]
    simp only
    split_ifs
    · decide
    · intro hmem
      simp only [List.mem_append] at hmem
      rcases hmem with h | h
      · revert h
        decide
      · rcases join_bytes _ _ 10 h with h1 | ⟨x, hx, h1⟩
        · revert h1
          decide
        · revert x
          apply foldl_inv (fun result : List GoString => ∀ x ∈ result, 10 ∈ x → False)
          · simp
          · intro acc hacc s _ x hx
            simp only at hx
            split_ifs at hx
            · simp only [List.mem_append, List.mem_singleton] at hx
              rcases hx with hx | rfl
              · exact hacc x hx
              · intro h10
                rcases itoa_bytes _ 10 h10 with h2 | h2 <;> omega
            · exact hacc x hx

theorem decodeLoop_newline (fuel : Nat) (encoded decodedText r : GoString)
    (henc : 10 ∉ encoded) (hdec : 10 ∉ decodedText)
    (h : decodeLoop fuel encoded decodedText = some r) : 10 ∉ r := by
  induction fuel generalizing encoded decodedText with
  | zero =>
    simp only [decodeLoop, Option.some.injEq] at h
    subst h
    exact hdec
  | succ n ih =>
    simp only [decodeLoop] at h
    by_cases h1 : encoded = []
    · simp only [h1, if_true, Option.some.injEq] at h
      subst h
      exact hdec
    · simp only [h1, if_false] at h
      cases hdrop : List.dropWhile unicode.IsDigit encoded with
      | nil =>
        simp only [hdrop, Option.some.injEq] at h
        subst h
        decide
      | cons char rest =>
        simp only [hdrop] at h
        by_cases h2 : List.takeWhile unicode.IsDigit encoded = []
        · simp only [h2, if_true, Option.some.injEq] at h
          subst h
          decide
        · simp only [h2, if_false] at h
          by_cases h3 : (strconv.Atoi (List.takeWhile unicode.IsDigit encoded)).2 = true ∨
              (strconv.Atoi (List.takeWhile unicode.IsDigit encoded)).1 < 1
          · simp only [h3, if_true, Option.some.injEq] at h
            subst h
            decide
          · simp only [h3, if_false] at h
            cases hrep : strings.Repeat (encodeRune char)
                (strconv.Atoi (List.takeWhile unicode.IsDigit encoded)).1 with
            | none => simp [hrep] at h
            | some repeated =>
              simp only [hrep] at h
              cases hw : strings.Builder.WriteString decodedText repeated with
              | none => simp [hw] at h
              | some written =>
              simp only [hw] at h
              rw [(writeString_eq _ _ _ hw).1] at h
              have hsub : ∀ x ∈ char :: rest, x ∈ encoded := by
                intro x hx
                rw [← hdrop] at hx
                exact (List.dropWhile_sublist _).subset hx
              refine ih rest (decodedText ++ repeated) ?_ ?_ h
              · intro h10
                exact henc (hsub 10 (List.mem_cons_of_mem _ h10))
              · intro h10
                simp only [List.mem_append] at h10
                rcases h10 with h10 | h10
                · exact hdec h10
                · have := repeat_bytes _ _ _ hrep 10 h10
                  rcases encodeRune_bytes _ 10 this with h4 | h4
                  · exact henc (hsub 10 (by rw [h4]; exact List.mem_cons_self _ _))
                  · omega

theorem decodeText_newline (parts : List GoString) (r : GoString)
    (h : ∀ t ∈ parts, 10 ∉ t) (hr : decodeText parts = some r) : 10 ∉ r := by
  unfold decodeText at hr
  split_ifs at hr with h1
  · simp only [Option.some.injEq] at hr
    subst hr
    decide
  · refine decodeLoop_newline _ _ _ _ ?_ (by simp) hr
    have hlen : 1 < parts.length := by omega
    rw [List.getD_eq_getElem _ _ hlen]
    exact h _ (List.getElem_mem _)

theorem checkVowels_newline (parts : List GoString) (h : ∀ t ∈ parts, 10 ∉ t) :
    10 ∉ checkVowels parts := by
  unfold checkVowels
  by_cases hlen : parts.length < 2
  · rw [if_pos hlen]
    decide
  · rw [if_neg hlen]
    simp only
    split_ifs
    · decide
    · intro hmem
      rcases join_bytes _ _ 10 hmem with h1 | ⟨x, hx, h1⟩
      · revert h1
        decide
      · revert x
        apply foldl_inv (fun validWords : List GoString => ∀ x ∈ validWords, 10 ∈ x → False)
        · simp
        · intro acc hacc word hword x hx
          simp only at hx
          split_ifs at hx
          · simp only [List.mem_append, List.mem_singleton] at hx
            rcases hx with hx | rfl
            · exact hacc x hx
            · intro h10
              have h2 := split_bytes _ _ word hword 10 (trimSpace_bytes _ 10 h10)
              rcases join_bytes _ _ 10 h2 with h3 | ⟨y, hy, h3⟩
              · revert h3
                decide
              · exact h y (List.mem_of_mem_drop hy) h3
          · exact hacc x hx

theorem sumLoop_newline (l : List GoString) (acc : Int) : 10 ∉ sumLoop l acc := by
  induction l generalizing acc with
  | nil =>
    simp only [sumLoop, List.mem_append]
    intro h
    rcases h with h | h
    · revert h
      decide
    · rcases itoa_bytes _ 10 h with h1 | h1 <;> omega
  | cons p rest ih =>
    simp only [sumLoop]
    split
    · exact ih _
    · split_ifs
      · decide
      · exact ih _

theorem sum_newline (parts : List GoString) : 10 ∉ sum parts := by
  unfold sum
  split_ifs
  · decide
  · exact sumLoop_newline _ _

theorem validPasswords_newline (parts : List GoString) (h : ∀ t ∈ parts, 10 ∉ t) :
    10 ∉ validPasswords parts := by
  unfold validPasswords
  split_ifs
  · decide
  · intro hmem
    rcases join_bytes _ _ 10 hmem with h1 | ⟨x, hx, h1⟩
    · revert h1
      decide
    · revert x
      apply foldl_inv (fun acc : List GoString => ∀ x ∈ acc, 10 ∈ x → False)
      · simp
      · intro acc hacc password hp x hx
        simp only at hx
        split_ifs at hx
        · simp only [List.mem_append, List.mem_singleton] at hx
          rcases hx with hx | rfl
          · exact hacc x hx
          · exact h x hp
        · exact hacc x hx
        · exact hacc x hx

/-- C8: whatever the bytes of the request, the string that `processRequest` returns
holds no byte `'\n'`, so `response + "\n"` is exactly one line. -/
theorem response_single_line (request response : GoString)
    (h : processRequest request = some response) : 10 ∉ response := by
  have hf := fields_newline request
  unfold processRequest at h
  split at h
  · simp only [Option.some.injEq] at h
    subst h
    decide
  · rename_i command args hfields
    rw [hfields] at hf
    split_ifs at h
    · simp only [Option.some.injEq] at h
      subst h
      exact createWords_newline _ hf
    · simp only [Option.some.injEq] at h
      subst h
      exact countPerfectSquares_newline _
    · simp only [Option.some.injEq] at h
      subst h
      exact convertBinaryToDecimal_newline _
    · exact decodeText_newline _ _ hf h
    · simp only [Option.some.injEq] at h
      subst h
      exact checkVowels_newline _ hf
    · simp only [Option.some.injEq] at h
      subst h
      exact sum_newline _
    · simp only [Option.some.injEq] at h
      subst h
      exact validPasswords_newline _ hf
    · simp only [Option.some.injEq] at h
      subst h
      decide

theorem response_single_line_witness :
    processRequest (str "createWords ab\ncd e\r\n") = some (str "ace bd  ") ∧
      10 ∉ str "ace bd  " :=
  ⟨by decide, response_single_line (str "createWords ab\ncd e\r\n") (str "ace bd  ") (by decide)⟩

/-! ## Decimal numerals -/

theorem natDigitsAux_eq (n : Nat) :
    ∀ fuel acc, n < fuel → natDigitsAux fuel n acc = natDigitsAux (n + 1) n [] ++ acc := by
  induction n using Nat.strong_induction_on with
  | _ n ih =>
    intro fuel acc hfuel
    obtain ⟨k, rfl⟩ : ∃ k, fuel = k + 1 := ⟨fuel - 1, by omega⟩
    by_cases h : n < 10
    · simp [natDigitsAux, h]
    · simp only [natDigitsAux, h, if_false]
      have hlt : n / 10 < n := by omega
      rw [ih (n / 10) hlt k _ (by omega), ih (n / 10) hlt n [48 + n % 10] (by omega)]
      simp

theorem natDigits_small (n : Nat) (h : n < 10) : natDigits n = [48 + n] := by
  simp [natDigits, natDigitsAux, h]

theorem natDigits_step (n : Nat) (h : ¬ n < 10) :
    natDigits n = natDigits (n / 10) ++ [48 + n % 10] := by
  have hstep : natDigitsAux (n + 1) n [] = natDigitsAux n (n / 10) [48 + n % 10] := by
    simp only [natDigitsAux, h, if_false]
  unfold natDigits
  rw [hstep, natDigitsAux_eq (n / 10) n _ (by omega)]

theorem natDigits_isDigit (n : Nat) : ∀ b ∈ natDigits n, unicode.IsDigit b = true := by
  intro b hb
  rcases natDigitsAux_bytes _ _ _ b hb with h | h
  · simp at h
  · simp [unicode.IsDigit, h]

theorem natDigits_ne_nil (n : Nat) : natDigits n ≠ [] := by
  by_cases h : n < 10
  · simp [natDigits_small n h]
  · simp [natDigits_step n h]

theorem digitsValue_append (s : GoString) (b : Nat) :
    digitsValue (s ++ [b]) = digitsValue s * 10 + (b - 48) := by
  simp [digitsValue]

theorem digitsValue_natDigits (n : Nat) : digitsValue (natDigits n) = n := by
  induction n using Nat.strong_induction_on with
  | _ n ih =>
    by_cases h : n < 10
    · simp [natDigits_small n h, digitsValue]
    · rw [natDigits_step n h, digitsValue_append, ih (n / 10) (by omega)]
      omega

theorem digitsValue_fold_le (s : GoString) (n0 : Nat) :
    n0 ≤ s.foldl (fun n b => n * 10 + (b - 48)) n0 := by
  induction s generalizing n0 with
  | nil => exact le_refl _
  | cons a t ih =>
    simp only [List.foldl_cons]
    have := ih (n0 * 10 + (a - 48))
    omega

theorem parseUintLoop_digits (s : GoString) (hs : ∀ b ∈ s, unicode.IsDigit b = true)
    (n0 : Nat) (hn0 : n0 < 2 ^ 64) :
    parseUintLoop 10 s n0 =
      if s.foldl (fun n b => n * 10 + (b - 48)) n0 < 2 ^ 64
      then (s.foldl (fun n b => n * 10 + (b - 48)) n0, NumError.ok)
      else (2 ^ 64 - 1, NumError.errRange) := by
  induction s generalizing n0 with
  | nil => simp only [parseUintLoop, List.foldl_nil, hn0, if_true]
  | cons a t ih =>
    have ha : 48 ≤ a ∧ a ≤ 57 := by
      have := hs a (List.mem_cons_self _ _)
      simpa [unicode.IsDigit] using this
    have hd : digitOfByte a = some (a - 48) := by
      simp [digitOfByte, ha]
    have hbase : ¬ (10 ≤ a - 48) := by omega
    simp only [parseUintLoop, hd, hbase, if_false, List.foldl_cons]
    by_cases hov : 2 ^ 64 ≤ n0 * 10 + (a - 48)
    · have hle := digitsValue_fold_le t (n0 * 10 + (a - 48))
      have hnot : ¬ (t.foldl (fun n b => n * 10 + (b - 48)) (n0 * 10 + (a - 48)) < 2 ^ 64) := by
        omega
      simp only [hov, if_true, hnot, if_false]
    · simp only [hov, if_false]
      exact ih (fun b hb => hs b (List.mem_cons_of_mem _ hb)) _ (by omega)

theorem atoi_digits (s : GoString) (hne : s ≠ [])
    (hs : ∀ b ∈ s, unicode.IsDigit b = true) :
    strconv.Atoi s =
      if digitsValue s < 2 ^ 63 then ((digitsValue s : Int), false) else (maxInt, true) := by
  unfold strconv.Atoi strconv.ParseInt strconv.ParseUint
  obtain ⟨a, t, rfl⟩ := List.exists_cons_of_ne_nil hne
  have ha : 48 ≤ a ∧ a ≤ 57 := by
    have := hs a (List.mem_cons_self _ _)
    simpa [unicode.IsDigit] using this
  have h45 : a ≠ 45 := by omega
  have h43 : a ≠ 43 := by omega
  simp only [List.head?_cons, Option.some.injEq, h45, h43, or_self, if_false, decide_False,
    Bool.false_eq_true, hne]
  rw [parseUintLoop_digits (a :: t) hs 0 (by norm_num)]
  unfold digitsValue
  by_cases h63 : List.foldl (fun n b => n * 10 + (b - 48)) 0 (a :: t) < 2 ^ 63
  · have h64 : List.foldl (fun n b => n * 10 + (b - 48)) 0 (a :: t) < 2 ^ 64 := by omega
    simp only [h63, h64, if_true]
    simp
  · by_cases h64 : List.foldl (fun n b => n * 10 + (b - 48)) 0 (a :: t) < 2 ^ 64
    · simp only [h63, h64, if_true, if_false]
      simp
    · simp only [h63, h64, if_false]
      simp

theorem atoi_natDigits (n : Nat) (h : n < 2 ^ 63) : strconv.Atoi (natDigits n) = ((n : Int), false) := by
  rw [atoi_digits _ (natDigits_ne_nil n) (natDigits_isDigit n), digitsValue_natDigits, if_pos h]

/-! ## Fields of ASCII text -/

theorem runesAux_ascii (s : GoString) (hs : ∀ b ∈ s, b < 0x80) :
    ∀ fuel, s.length ≤ fuel → runesAux fuel s = s.map fun b => (b, [b]) := by
  induction s with
  | nil => intro fuel _; cases fuel <;> simp [runesAux]
  | cons a t ih =>
    intro fuel hfuel
    obtain ⟨k, rfl⟩ : ∃ k, fuel = k + 1 := ⟨fuel - 1, by simp at hfuel; omega⟩
    have ha : a < 0x80 := hs a (List.mem_cons_self _ _)
    simp only [runesAux, decodeRune_ascii a t ha, List.take_succ_cons, List.take_zero,
      List.drop_succ_cons, List.drop_zero, List.map_cons]
    rw [ih (fun b hb => hs b (List.mem_cons_of_mem _ hb)) k (by simp at hfuel; omega)]

theorem runes_ascii (s : GoString) (hs : ∀ b ∈ s, b < 0x80) :
    runes s = s.map fun b => (b, [b]) :=
  runesAux_ascii s hs _ (le_refl _)

theorem fieldsAux_word (w : GoString) (hw : ∀ b ∈ w, unicode.IsSpace b = false)
    (chunks : List (Nat × GoString)) (cur : GoString) :
    fieldsAux ((w.map fun b => (b, [b])) ++ chunks) cur = fieldsAux chunks (cur ++ w) := by
  induction w generalizing cur with
  | nil => simp
  | cons a t ih =>
    have ha : unicode.IsSpace a = false := hw a (List.mem_cons_self _ _)
    simp only [List.map_cons, List.cons_append, fieldsAux, ha, Bool.false_eq_true, if_false,
      List.append_eq]
    rw [ih (fun b hb => hw b (List.mem_cons_of_mem _ hb))]
    simp

/-- The fields of `command ++ " " ++ argument` for two non-empty ASCII words without
white space. -/
theorem fields_two_words (command argument : GoString)
    (hc : ∀ b ∈ command, b < 0x80 ∧ unicode.IsSpace b = false) (hcne : command ≠ [])
    (ha : ∀ b ∈ argument, b < 0x80 ∧ unicode.IsSpace b = false) (hane : argument ≠ []) :
    strings.Fields (command ++ 32 :: argument) = [command, argument] := by
  unfold strings.Fields
  rw [runes_ascii]
  · rw [List.map_append, fieldsAux_word command (fun b hb => (hc b hb).2)]
    simp only [List.map_cons, List.nil_append]
    have hsp : unicode.IsSpace 32 = true := by decide
    simp only [fieldsAux, hsp, if_true, hcne, if_false]
    have := fieldsAux_word argument (fun b hb => (ha b hb).2) [] []
    simp only [List.append_nil, List.nil_append] at this
    rw [this]
    simp [fieldsAux, hane]
  · intro b hb
    simp only [List.mem_append, List.mem_cons] at hb
    rcases hb with hb | rfl | hb
    · exact (hc b hb).1
    · decide
    · exact (ha b hb).1

/-! ## Decoding a run-length text -/

theorem takeWhile_run (p : Nat → Bool) (l : GoString) (x : Nat) (rest : GoString)
    (hl : ∀ b ∈ l, p b = true) (hx : p x = false) :
    List.takeWhile p (l ++ x :: rest) = l ∧ List.dropWhile p (l ++ x :: rest) = x :: rest := by
  induction l with
  | nil => simp [List.takeWhile, List.dropWhile, hx]
  | cons a t ih =>
    have ha : p a = true := hl a (List.mem_cons_self _ _)
    obtain ⟨h1, h2⟩ := ih (fun b hb => hl b (List.mem_cons_of_mem _ hb))
    simp [List.takeWhile, List.dropWhile, ha, h1, h2]

theorem flatten_replicate_singleton (c x : Nat) :
    (List.replicate c [x]).flatten = List.replicate c x := by
  induction c with
  | zero => rfl
  | succ k ih => simp [List.replicate_succ, ih]

theorem repeat_ascii (x : Nat) (c : Nat) (hx : x < 0x80) (hc : c ≤ maxAlloc) :
    strings.Repeat (encodeRune x) (c : Int) = some (List.replicate c x) := by
  have henc : encodeRune x = [x] := by simp [encodeRune, hx]
  have hm : maxAlloc = 2 ^ 48 := rfl
  rw [hm] at hc
  unfold strings.Repeat maxInt
  rw [henc, hm]
  by_cases h0 : c = 0
  · subst h0
    simp
  · by_cases h1 : c = 1
    · subst h1
      simp
    · have e0 : ¬ ((c : Int) = 0) := by omega
      have e1 : ¬ ((c : Int) = 1) := by omega
      have e2 : ¬ ((c : Int) < 0) := by omega
      have e3 : ¬ ((2 : Int) ^ 63 - 1 < (([x] : GoString).length : Int) * (c : Int)) := by
        simp only [List.length_singleton, Nat.cast_one, one_mul]
        omega
      have e4 : ¬ (([x] : GoString).length = 0) := by simp
      have e5 : ¬ (((2 ^ 48 : Nat) : Int) < (([x] : GoString).length : Int) * (c : Int)) := by
        simp only [List.length_singleton, Nat.cast_one, one_mul]
        push_cast
        omega
      simp only [e0, e1, e2, e3, e4, e5, if_false, Int.toNat_ofNat, flatten_replicate_singleton]

theorem encodeRuns_length (pairs : List (Nat × Nat)) : pairs.length ≤ (encodeRuns pairs).length := by
  induction pairs with
  | nil => simp
  | cons p rest ih =>
    obtain ⟨c, x⟩ := p
    simp only [encodeRuns, List.length_cons, List.length_append]
    omega

theorem encodeRuns_ne_nil (pairs : List (Nat × Nat)) (h : pairs ≠ []) : encodeRuns pairs ≠ [] := by
  obtain ⟨⟨c, x⟩, rest, rfl⟩ := List.exists_cons_of_ne_nil h
  simp [encodeRuns]

theorem encodeRuns_bytes (pairs : List (Nat × Nat))
    (hx : ∀ p ∈ pairs, p.2 < 0x80 ∧ unicode.IsSpace p.2 = false) :
    ∀ b ∈ encodeRuns pairs, b < 0x80 ∧ unicode.IsSpace b = false := by
  induction pairs with
  | nil => simp [encodeRuns]
  | cons p rest ih =>
    obtain ⟨c, x⟩ := p
    intro b hb
    simp only [encodeRuns, List.mem_append, List.mem_cons] at hb
    rcases hb with hb | rfl | hb
    · have := natDigits_isDigit c b hb
      simp only [unicode.IsDigit, decide_eq_true_eq] at this
      refine ⟨by omega, ?_⟩
      simp only [unicode.IsSpace, decide_eq_false_iff_not]
      omega
    · exact hx (c, b) (List.mem_cons_self _ _)
    · exact ih (fun p hp => hx p (List.mem_cons_of_mem _ hp)) b hb

theorem decodeLoop_encodeRuns (pairs : List (Nat × Nat))
    (hc : ∀ p ∈ pairs, 1 ≤ p.1)
    (hx : ∀ p ∈ pairs, p.2 < 0x80 ∧ unicode.IsDigit p.2 = false) :
    ∀ fuel decodedText, pairs.length ≤ fuel →
      decodedText.length + (pairs.map Prod.fst).sum ≤ maxAlloc →
      decodeLoop fuel (encodeRuns pairs) decodedText = some (decodedText ++ expandRuns pairs) := by
  induction pairs with
  | nil =>
    intro fuel decodedText _ _
    cases fuel <;> simp [decodeLoop, encodeRuns, expandRuns]
  | cons p rest ih =>
    obtain ⟨c, x⟩ := p
    intro fuel decodedText hfuel hsum
    obtain ⟨k, rfl⟩ : ∃ k, fuel = k + 1 := ⟨fuel - 1, by simp at hfuel; omega⟩
    have hcx := hc (c, x) (List.mem_cons_self _ _)
    have hxx := hx (c, x) (List.mem_cons_self _ _)
    simp only [List.map_cons, List.sum_cons] at hsum
    have hm : maxAlloc = 2 ^ 48 := rfl
    have hcle : c ≤ maxAlloc := by omega
    have hc63 : c < 2 ^ 63 := by omega
    have hw : (decodedText ++ List.replicate c x).length ≤ maxAlloc := by
      simp only [List.length_append, List.length_replicate]
      omega
    obtain ⟨ht, hd⟩ := takeWhile_run unicode.IsDigit (natDigits c) x (encodeRuns rest)
      (natDigits_isDigit c) hxx.2
    have hne : natDigits c ++ x :: encodeRuns rest ≠ [] := by simp
    have hcount : ¬ (False ∨ (c : Int) < 1) := by
      simp only [false_or, not_lt]
      omega
    simp only [decodeLoop, encodeRuns, hne, if_false, ht, hd, natDigits_ne_nil,
      atoi_natDigits c hc63, Bool.false_eq_true, hcount, repeat_ascii x c hxx.1 hcle,
      writeString_of_le _ _ hw]
    rw [ih (fun p hp => hc p (List.mem_cons_of_mem _ hp))
      (fun p hp => hx p (List.mem_cons_of_mem _ hp)) k _ (by simp at hfuel; omega)
      (by simp only [List.length_append, List.length_replicate]; omega)]
    simp [expandRuns]

/-! ## Run-length encoding -/

theorem runLengthEncode_run (c x : Nat) (s : GoString) (more : List (Nat × Nat))
    (hs : runLengthEncode s = more) (hhead : ∀ p ∈ more.head?, x ≠ p.2) :
    runLengthEncode (List.replicate (c + 1) x ++ s) = (c + 1, x) :: more := by
  induction c with
  | zero =>
    show runLengthEncode (x :: s) = (1, x) :: more
    rw [runLengthEncode]
    cases more with
    | nil => rw [hs]
    | cons q more' =>
      obtain ⟨d, y⟩ := q
      have : x ≠ y := hhead (d, y) (by simp)
      rw [hs]
      simp [this]
  | succ k ih =>
    rw [List.replicate_succ, List.cons_append, runLengthEncode, ih]
    simp

theorem runLengthEncode_expandRuns (pairs : List (Nat × Nat))
    (hc : ∀ p ∈ pairs, 1 ≤ p.1) (hadj : List.Chain' (fun p q => p.2 ≠ q.2) pairs) :
    runLengthEncode (expandRuns pairs) = pairs := by
  induction pairs with
  | nil => rfl
  | cons p rest ih =>
    obtain ⟨c, x⟩ := p
    have hc1 : 1 ≤ c := hc (c, x) (List.mem_cons_self _ _)
    obtain ⟨k, rfl⟩ : ∃ k, c = k + 1 := ⟨c - 1, by omega⟩
    rw [expandRuns]
    refine runLengthEncode_run k x _ rest
      (ih (fun p hp => hc p (List.mem_cons_of_mem _ hp)) (List.Chain'.tail hadj)) ?_
    intro q hq
    exact List.Chain'.rel_head? hadj hq

/-- The dispatcher hands a request `decodeText t` to the decoding loop. -/
theorem processRequest_decodeText (request t : GoString)
    (hf : strings.Fields request = [str "decodeText", t]) :
    processRequest request = decodeLoop t.length t [] := by
  have h1 : str "decodeText" ≠ str "createWords" := by decide
  have h2 : str "decodeText" ≠ str "countPerfectSquares" := by decide
  have h3 : str "decodeText" ≠ str "convert2to10" := by decide
  unfold processRequest
  rw [hf]
  simp only [h1, h2, h3, if_false, if_true, decodeText, List.length_cons, List.length_nil]
  simp

/-- C9, as stated, fails for a large count: the pair `(2 ^ 62, a)` is within the
stated bounds, yet the request `decodeText 4611686018427387904a` is not answered:
`strings.Repeat` is asked for `2 ^ 62` bytes, more than the runtime allocates, and
panics. -/
theorem decodeText_large_count_panics :
    ((1 : Nat) ≤ 4611686018427387904 ∧ (4611686018427387904 : Nat) < 2 ^ 63 ∧
      (97 : Nat) < 0x80 ∧ unicode.IsDigit 97 = false ∧ unicode.IsSpace 97 = false) ∧
    encodeRuns [(4611686018427387904, 97)] = str "4611686018427387904a" ∧
    strings.Repeat (encodeRune 97) 4611686018427387904 = none ∧
    processRequest (str "decodeText " ++ encodeRuns [(4611686018427387904, 97)]) = none ∧
    processRequest (str "decodeText " ++ encodeRuns [(4611686018427387904, 97)]) ≠
      some (expandRuns [(4611686018427387904, 97)]) := by
  have h : processRequest (str "decodeText " ++ encodeRuns [(4611686018427387904, 97)]) =
      none := by decide
  refine ⟨by decide, by decide, by decide, h, ?_⟩
  rw [h]
  exact fun e => Option.noConfusion e

/-- C9, amended: for a non-empty list of pairs `(c, x)` with `1 ≤ c`, `x` an ASCII
byte that is neither a digit nor white space, and the counts adding up to no more
than half of the largest allocation, the request `decodeText` followed by the
numerals and bytes of the pairs is answered with each `x` repeated `c` times; when
adjacent bytes differ, run-length encoding the answer gives the pairs back. -/
theorem decodeText_expands (pairs : List (Nat × Nat)) (hne : pairs ≠ [])
    (hc : ∀ p ∈ pairs, 1 ≤ p.1)
    (hsum : 2 * (pairs.map Prod.fst).sum ≤ maxAlloc)
    (hx : ∀ p ∈ pairs, p.2 < 0x80 ∧ unicode.IsDigit p.2 = false ∧
      unicode.IsSpace p.2 = false) :
    processRequest (str "decodeText " ++ encodeRuns pairs) = some (expandRuns pairs) ∧
      (List.Chain' (fun p q => p.2 ≠ q.2) pairs →
        runLengthEncode (expandRuns pairs) = pairs) := by
  have hsplit : str "decodeText " ++ encodeRuns pairs =
      str "decodeText" ++ 32 :: encodeRuns pairs := by
    have : str "decodeText " = str "decodeText" ++ [32] := by decide
    rw [this]
    simp
  have hfields : strings.Fields (str "decodeText " ++ encodeRuns pairs) =
      [str "decodeText", encodeRuns pairs] := by
    rw [hsplit]
    exact fields_two_words _ _ (by decide) (by decide)
      (encodeRuns_bytes pairs (fun p hp => ⟨(hx p hp).1, (hx p hp).2.2⟩))
      (encodeRuns_ne_nil pairs hne)
  constructor
  · rw [processRequest_decodeText _ _ hfields,
      decodeLoop_encodeRuns pairs hc (fun p hp => ⟨(hx p hp).1, (hx p hp).2.1⟩) _ []
        (encodeRuns_length pairs) (by simp only [List.length_nil]; omega)]
    simp
  · exact runLengthEncode_expandRuns pairs hc

theorem decodeText_expands_witness :
    (([(3, 97), (2, 98)] : List (Nat × Nat)) ≠ [] ∧
      (∀ p ∈ ([(3, 97), (2, 98)] : List (Nat × Nat)), 1 ≤ p.1) ∧
      2 * (([(3, 97), (2, 98)] : List (Nat × Nat)).map Prod.fst).sum ≤ maxAlloc ∧
      (∀ p ∈ ([(3, 97), (2, 98)] : List (Nat × Nat)), p.2 < 0x80 ∧
        unicode.IsDigit p.2 = false ∧ unicode.IsSpace p.2 = false)) ∧
    encodeRuns [(3, 97), (2, 98)] = str "3a2b" ∧ expandRuns [(3, 97), (2, 98)] = str "aaabb" ∧
    runLengthEncode (str "aaabb") = [(3, 97), (2, 98)] ∧
    (processRequest (str "decodeText " ++ encodeRuns [(3, 97), (2, 98)]) =
        some (expandRuns [(3, 97), (2, 98)]) ∧
      (List.Chain' (fun p q => p.2 ≠ q.2) ([(3, 97), (2, 98)] : List (Nat × Nat)) →
        runLengthEncode (expandRuns [(3, 97), (2, 98)]) = [(3, 97), (2, 98)])) :=
  ⟨⟨by decide, by decide, by decide, by decide⟩, by decide, by decide, by decide,
    decodeText_expands [(3, 97), (2, 98)] (by decide) (by decide) (by decide) (by decide)⟩

/-! ## Malformed run-length texts -/

theorem decodeLoop_group (k : Nat) (ds : GoString) (x : Nat) (rest decodedText : GoString)
    (hne : ds ≠ []) (hds : ∀ d ∈ ds, unicode.IsDigit d = true)
    (hx : unicode.IsDigit x = false) (h1 : 1 ≤ digitsValue ds)
    (h2 : digitsValue ds ≤ 2 ^ 63 - 1) :
    decodeLoop (k + 1) (ds ++ x :: rest) decodedText =
      ((strings.Repeat (encodeRune x) (digitsValue ds : Int)).bind
        fun repeated => strings.Builder.WriteString decodedText repeated).bind
          fun written => decodeLoop k rest written := by
  obtain ⟨ht, hd⟩ := takeWhile_run unicode.IsDigit ds x rest hds hx
  have hne' : ds ++ x :: rest ≠ [] := by simp
  have hlt : digitsValue ds < 2 ^ 63 := by omega
  have hcount : ¬ (False ∨ (digitsValue ds : Int) < 1) := by
    simp only [false_or, not_lt]
    omega
  simp only [decodeLoop, hne', if_false, ht, hd, hne, atoi_digits ds hne hds, hlt, if_true,
    Bool.false_eq_true, hcount]
  cases strings.Repeat (encodeRune x) (digitsValue ds : Int) with
  | none => rfl
  | some repeated =>
    show (match strings.Builder.WriteString decodedText repeated with
      | none => none
      | some written => decodeLoop k rest written) =
      (strings.Builder.WriteString decodedText repeated).bind
        fun written => decodeLoop k rest written
    cases strings.Builder.WriteString decodedText repeated <;> rfl

theorem space_not_mem_of_repeat (x : Nat) (count : Int) (repeated : GoString) (hx : x ≠ 32)
    (h : strings.Repeat (encodeRune x) count = some repeated) : 32 ∉ repeated := by
  intro h32
  rcases encodeRune_bytes x 32 (repeat_bytes _ _ _ h 32 h32) with h1 | h1 <;> omega

theorem decodeLoop_groups_space (gs : List GoString) (hgs : ∀ g ∈ gs, IsGroup g)
    (hsp : 32 ∉ gs.flatten) :
    ∀ fuel decodedText r, 32 ∉ decodedText →
      decodeLoop fuel gs.flatten decodedText = some r → 32 ∉ r := by
  induction gs with
  | nil =>
    intro fuel decodedText r hdec h
    cases fuel <;> simp [decodeLoop] at h <;> subst h <;> exact hdec
  | cons g rest ih =>
    intro fuel decodedText r hdec h
    cases fuel with
    | zero =>
      simp only [decodeLoop, Option.some.injEq] at h
      subst h
      exact hdec
    | succ k =>
      obtain ⟨ds, x, rfl, hne, hds, hx, h1, h2⟩ := hgs g (List.mem_cons_self _ _)
      have hflat : ((ds ++ [x]) :: rest).flatten = ds ++ x :: rest.flatten := by simp
      rw [hflat] at h hsp
      rw [decodeLoop_group k ds x _ _ hne hds hx h1 h2] at h
      have hx32 : x ≠ 32 := by
        rintro rfl
        exact hsp (by simp)
      have hrest : 32 ∉ rest.flatten := by
        intro h32
        exact hsp (by simp [List.mem_append, List.mem_cons] at h32 ⊢; exact Or.inr (Or.inr h32))
      cases hrep : strings.Repeat (encodeRune x) (digitsValue ds : Int) with
      | none => simp [hrep] at h
      | some repeated =>
        simp only [hrep, Option.bind_some] at h
        cases hw : strings.Builder.WriteString decodedText repeated with
        | none => simp [hw] at h
        | some written =>
        simp only [Option.some_bind, hw] at h
        rw [(writeString_eq _ _ _ hw).1] at h
        refine ih (fun g hg => hgs g (List.mem_cons_of_mem _ hg)) hrest k _ r ?_ h
        intro h32
        simp only [List.mem_append] at h32
        rcases h32 with h32 | h32
        · exact hdec h32
        · exact space_not_mem_of_repeat x _ _ hx32 hrep h32

theorem decodeLoop_complete (fuel : Nat) :
    ∀ t decodedText, t.length ≤ fuel →
      decodeLoop fuel t decodedText = some (str "Error: invalid encoded text") ∨
      decodeLoop fuel t decodedText = some (str "Error: invalid repetition count") ∨
      decodeLoop fuel t decodedText = none ∨ WellFormed t := by
  induction fuel with
  | zero =>
    intro t decodedText hlen
    have : t = [] := List.eq_nil_of_length_eq_zero (by omega)
    subst this
    exact Or.inr (Or.inr (Or.inr ⟨[], rfl, by simp⟩))
  | succ k ih =>
    intro t decodedText hlen
    by_cases h1 : t = []
    · subst h1
      exact Or.inr (Or.inr (Or.inr ⟨[], rfl, by simp⟩))
    · simp only [decodeLoop, h1, if_false]
      cases hdrop : List.dropWhile unicode.IsDigit t with
      | nil => exact Or.inl rfl
      | cons char rest =>
        simp only
        by_cases h2 : List.takeWhile unicode.IsDigit t = []
        · simp only [h2, if_true]
          exact Or.inl trivial
        · simp only [h2, if_false]
          have hds : ∀ d ∈ List.takeWhile unicode.IsDigit t, unicode.IsDigit d = true :=
            fun d hd => List.mem_takeWhile_imp hd
          rw [atoi_digits _ h2 hds]
          by_cases h3 : digitsValue (List.takeWhile unicode.IsDigit t) < 2 ^ 63
          · simp only [h3, if_true, Bool.false_eq_true, false_or]
            by_cases h4 : (digitsValue (List.takeWhile unicode.IsDigit t) : Int) < 1
            · simp only [h4, if_true]
              exact Or.inr (Or.inl trivial)
            · simp only [h4, if_false]
              cases hrep : strings.Repeat (encodeRune char)
                  (digitsValue (List.takeWhile unicode.IsDigit t) : Int) with
              | none => exact Or.inr (Or.inr (Or.inl rfl))
              | some repeated =>
                simp only
                cases hw : strings.Builder.WriteString decodedText repeated with
                | none => exact Or.inr (Or.inr (Or.inl rfl))
                | some written =>
                simp only
                have hsplit : t = List.takeWhile unicode.IsDigit t ++ char :: rest := by
                  rw [← hdrop, List.takeWhile_append_dropWhile]
                have hrl : rest.length ≤ k := by
                  have := congrArg List.length hsplit
                  simp only [List.length_append, List.length_cons] at this
                  omega
                rcases ih rest written hrl with h | h | h | ⟨gs, hgs1, hgs2⟩
                · exact Or.inl h
                · exact Or.inr (Or.inl h)
                · exact Or.inr (Or.inr (Or.inl h))
                · refine Or.inr (Or.inr (Or.inr
                    ⟨(List.takeWhile unicode.IsDigit t ++ [char]) :: gs, ?_, ?_⟩))
                  · rw [List.flatten_cons, ← hgs1]
                    simpa using hsplit
                  · intro g hg
                    simp only [List.mem_cons] at hg
                    rcases hg with rfl | hg
                    · have hchar : unicode.IsDigit char = false := by
                        have := List.head_dropWhile_not unicode.IsDigit t
                          (by rw [hdrop]; simp)
                        simpa [hdrop] using this
                      exact ⟨_, char, rfl, h2, hds, hchar, by omega, by omega⟩
                    · exact hgs2 g hg
          · simp only [h3, if_false, true_or, if_true]
            trivial

theorem decodeLoop_skip (gs : List GoString) (hgs : ∀ g ∈ gs, IsGroup g) (r : GoString) :
    ∀ fuel decodedText,
      decodeLoop fuel (gs.flatten ++ r) decodedText = none ∨
      ∃ decoded, decodeLoop fuel (gs.flatten ++ r) decodedText =
        decodeLoop (fuel - gs.length) r decoded := by
  induction gs with
  | nil =>
    intro fuel decodedText
    exact Or.inr ⟨decodedText, by simp⟩
  | cons g rest ih =>
    intro fuel decodedText
    cases fuel with
    | zero => exact Or.inr ⟨decodedText, by simp [decodeLoop]⟩
    | succ k =>
      obtain ⟨ds, x, rfl, hne, hds, hx, h1, h2⟩ := hgs g (List.mem_cons_self _ _)
      have hflat : ((ds ++ [x]) :: rest).flatten ++ r = ds ++ x :: (rest.flatten ++ r) := by
        simp
      rw [hflat, decodeLoop_group k ds x _ _ hne hds hx h1 h2]
      cases hrep : strings.Repeat (encodeRune x) (digitsValue ds : Int) with
      | none => exact Or.inl rfl
      | some repeated =>
        simp only [Option.some_bind]
        cases hw : strings.Builder.WriteString decodedText repeated with
        | none => exact Or.inl rfl
        | some written =>
          simp only [Option.some_bind, List.length_cons, Nat.add_sub_add_right]
          exact ih (fun g hg => hgs g (List.mem_cons_of_mem _ hg)) k _

theorem groups_length (gs : List GoString) (hgs : ∀ g ∈ gs, IsGroup g) :
    gs.length ≤ gs.flatten.length := by
  induction gs with
  | nil => simp
  | cons g rest ih =>
    obtain ⟨ds, x, rfl, _⟩ := hgs g (List.mem_cons_self _ _)
    have := ih (fun g hg => hgs g (List.mem_cons_of_mem _ hg))
    simp only [List.flatten_cons, List.length_cons, List.length_append, List.length_nil]
    omega

theorem decodeLoop_no_digits (k : Nat) (r decodedText : GoString) (hne : r ≠ [])
    (h : unicode.IsDigit (r.headD 0) = false) :
    decodeLoop (k + 1) r decodedText = some (str "Error: invalid encoded text") := by
  obtain ⟨a, rest, rfl⟩ := List.exists_cons_of_ne_nil hne
  simp only [List.headD_cons] at h
  simp [decodeLoop, List.takeWhile, List.dropWhile, h]

theorem decodeLoop_only_digits (k : Nat) (r decodedText : GoString) (hne : r ≠ [])
    (h : ∀ b ∈ r, unicode.IsDigit b = true) :
    decodeLoop (k + 1) r decodedText = some (str "Error: invalid encoded text") := by
  have hdrop : List.dropWhile unicode.IsDigit r = [] := by
    rw [List.dropWhile_eq_nil_iff]
    exact h
  simp only [decodeLoop, hne, if_false, hdrop]

theorem decodeLoop_zero_count (k : Nat) (ds : GoString) (x : Nat) (rest decodedText : GoString)
    (hne : ds ≠ []) (hds : ∀ d ∈ ds, unicode.IsDigit d = true)
    (hx : unicode.IsDigit x = false) (h0 : digitsValue ds = 0) :
    decodeLoop (k + 1) (ds ++ x :: rest) decodedText =
      some (str "Error: invalid repetition count") := by
  obtain ⟨ht, hd⟩ := takeWhile_run unicode.IsDigit ds x rest hds hx
  have hne' : ds ++ x :: rest ≠ [] := by simp
  simp [decodeLoop, hne', ht, hd, hne, atoi_digits ds hne hds, h0]

theorem wellFormed_last (t : GoString) (h : WellFormed t) :
    t = [] ∨ ∃ x, t.getLast? = some x ∧ unicode.IsDigit x = false := by
  obtain ⟨gs, rfl, hgs⟩ := h
  rcases List.eq_nil_or_concat gs with rfl | ⟨gs', g, rfl⟩
  · exact Or.inl rfl
  · right
    obtain ⟨ds, x, rfl, _, _, hx, _⟩ := hgs g (by simp)
    refine ⟨x, ?_, hx⟩
    simp [List.getLast?_append]

/-- C10, as stated, fails twice.  In `decodeText 0a5` the text ends with a digit run,
yet the answer is `Error: invalid repetition count`, the count 0 coming first.  The
text `4611686018427387904\xff5` is not a concatenation of groups, yet the request
is not answered with an error line: `strings.Repeat` panics on its first group. -/
theorem decodeText_first_error_decides :
    (strings.Fields (str "decodeText 0a5") = [str "decodeText", str "0a5"] ∧
      str "0a5" = str "0a" ++ str "5" ∧
      processRequest (str "decodeText 0a5") = some (str "Error: invalid repetition count") ∧
      processRequest (str "decodeText 0a5") ≠ some (str "Error: invalid encoded text")) ∧
    (strings.Fields (str "decodeText 4611686018427387904" ++ [0xFF] ++ str "5") =
        [str "decodeText", str "4611686018427387904" ++ [0xFF] ++ str "5"] ∧
      ¬ WellFormed (str "4611686018427387904" ++ [0xFF] ++ str "5") ∧
      processRequest (str "decodeText 4611686018427387904" ++ [0xFF] ++ str "5") = none) := by
  refine ⟨by decide, by decide, ?_, by decide⟩
  intro h
  rcases wellFormed_last _ h with h1 | ⟨x, h1, h2⟩
  · revert h1
    decide
  · have : (str "4611686018427387904" ++ [0xFF] ++ str "5").getLast? = some 53 := by decide
    rw [this] at h1
    simp only [Option.some.injEq] at h1
    subst h1
    revert h2
    decide

/-- C10, amended: for a request `decodeText t` that is answered, the answer is one of
the two error lines exactly when `t` is not a concatenation of groups, and the
first malformed group decides which: after well-formed groups, a remainder that
starts with a byte that is not a digit, or that holds digits only, gives
`Error: invalid encoded text`, and a remainder whose leading digits denote 0 and are
followed by a byte gives `Error: invalid repetition count`; the answer is that line
alone. -/
theorem decodeText_malformed (request t : GoString)
    (hf : strings.Fields request = [str "decodeText", t])
    (hans : processRequest request ≠ none) :
    ((processRequest request = some (str "Error: invalid encoded text") ∨
        processRequest request = some (str "Error: invalid repetition count")) ↔
      ¬ WellFormed t) ∧
    ∀ (gs : List GoString) (r : GoString), t = gs.flatten ++ r → (∀ g ∈ gs, IsGroup g) → r ≠ [] →
      ((unicode.IsDigit (r.headD 0) = false ∨ ∀ b ∈ r, unicode.IsDigit b = true) →
        processRequest request = some (str "Error: invalid encoded text")) ∧
      (∀ ds x rest, r = ds ++ x :: rest → ds ≠ [] → (∀ d ∈ ds, unicode.IsDigit d = true) →
        unicode.IsDigit x = false → digitsValue ds = 0 →
        processRequest request = some (str "Error: invalid repetition count")) := by
  have hp := processRequest_decodeText request t hf
  rw [hp] at hans ⊢
  have ht32 : 32 ∉ t := fields_space request t (by rw [hf]; simp)
  constructor
  · constructor
    · rintro h ⟨gs, rfl, hgs⟩
      have key := decodeLoop_groups_space gs hgs ht32 gs.flatten.length [] 
      rcases h with h | h
      · exact key _ (by simp) h (by decide)
      · exact key _ (by simp) h (by decide)
    · intro hnwf
      rcases decodeLoop_complete t.length t [] (le_refl _) with h | h | h | h
      · exact Or.inl h
      · exact Or.inr h
      · exact absurd h hans
      · exact absurd h hnwf
  · intro gs r ht hgs hr
    subst ht
    have hlen : gs.length < (gs.flatten ++ r).length := by
      have h1 := groups_length gs hgs
      have h2 : 0 < r.length := List.length_pos.mpr hr
      simp only [List.length_append]
      omega
    obtain ⟨k, hk⟩ : ∃ k, (gs.flatten ++ r).length - gs.length = k + 1 :=
      ⟨(gs.flatten ++ r).length - gs.length - 1, by omega⟩
    rcases decodeLoop_skip gs hgs r (gs.flatten ++ r).length [] with h | ⟨decoded, h⟩
    · exact absurd h hans
    · rw [h, hk]
      constructor
      · rintro (h1 | h1)
        · exact decodeLoop_no_digits k r decoded hr h1
        · exact decodeLoop_only_digits k r decoded hr h1
      · intro ds x rest hrr hne hds hx h0
        subst hrr
        exact decodeLoop_zero_count k ds x rest decoded hne hds hx h0

theorem decodeText_malformed_witness :
    (strings.Fields (str "decodeText 2a0b7") = [str "decodeText", str "2a0b7"] ∧
      processRequest (str "decodeText 2a0b7") ≠ none) ∧
    processRequest (str "decodeText 2a0b7") = some (str "Error: invalid repetition count") ∧
    (((processRequest (str "decodeText 2a0b7") = some (str "Error: invalid encoded text") ∨
        processRequest (str "decodeText 2a0b7") =
          some (str "Error: invalid repetition count")) ↔
      ¬ WellFormed (str "2a0b7")) ∧
    ∀ (gs : List GoString) (r : GoString), str "2a0b7" = gs.flatten ++ r → (∀ g ∈ gs, IsGroup g) → r ≠ [] →
      ((unicode.IsDigit (r.headD 0) = false ∨ ∀ b ∈ r, unicode.IsDigit b = true) →
        processRequest (str "decodeText 2a0b7") = some (str "Error: invalid encoded text")) ∧
      (∀ ds x rest, r = ds ++ x :: rest → ds ≠ [] → (∀ d ∈ ds, unicode.IsDigit d = true) →
        unicode.IsDigit x = false → digitsValue ds = 0 →
        processRequest (str "decodeText 2a0b7") =
          some (str "Error: invalid repetition count"))) :=
  ⟨⟨by decide, by decide⟩, by decide,
    decodeText_malformed (str "decodeText 2a0b7") (str "2a0b7") (by decide) (by decide)⟩

/-! ## Requests that are answered -/

/-- A request whose first field is not `decodeText` is answered: of the handlers,
`decodeText` alone can panic. -/
theorem processRequest_answered (request : GoString)
    (h : (strings.Fields request).head? ≠ some (str "decodeText")) :
    processRequest request ≠ none := by
  unfold processRequest
  split
  · simp
  · rename_i command args hfields
    rw [hfields] at h
    simp only [List.head?_cons, ne_eq, Option.some.injEq] at h
    split_ifs <;> simp

/-! ## The handler `sum` -/

/-- C15: the request `sum 12 34` is answered `Suma este: 112`, the last field being
left out of the total; the total 112 + 334 = 446 only comes when a further field
follows. -/
theorem sum_skips_last_field :
    processRequest (str "sum 12 34") = some (str "Suma este: 112") ∧
    processRequest (str "sum 12 34") ≠ some (str "Suma este: 446") ∧
    processRequest (str "sum 12 34 0") = some (str "Suma este: 446") ∧
    processRequest (str "sum 12") = some (str "Suma este: 0") := by
  decide

/-- C19: the requests `sum 12 x` and `sum 1x 2` hold a field that is no decimal
number, yet are answered with a total: the last field is never examined, and of the
others only the first byte is. -/
theorem sum_accepts_invalid_number :
    processRequest (str "sum 12 x") = some (str "Suma este: 112") ∧
    processRequest (str "sum 1x 2") = some (str "Suma este: 0") ∧
    processRequest (str "sum x1 2") = some (str "Error: invalid number in input") := by
  decide

/-! ## Faults -/

/-- C18: the request `decodeText 4611686018427387904\xff` is not answered:
`strings.Repeat` is asked for `2 ^ 62` copies of a two-byte string and panics. -/
theorem processRequest_faults :
    strings.Fields (str "decodeText 4611686018427387904" ++ [0xFF]) =
      [str "decodeText", str "4611686018427387904" ++ [0xFF]] ∧
    encodeRune 0xFF = [0xC3, 0xBF] ∧
    strings.Repeat (encodeRune 0xFF) 4611686018427387904 = none ∧
    processRequest (str "decodeText 4611686018427387904" ++ [0xFF]) = none := by
  decide

/-! ## Blank requests -/

theorem fieldsAux_blank (chunks : List (Nat × GoString))
    (h : ∀ c ∈ chunks, unicode.IsSpace c.1 = true) : fieldsAux chunks [] = [] := by
  induction chunks with
  | nil => simp [fieldsAux]
  | cons c rest ih =>
    obtain ⟨r, bs⟩ := c
    have hr : unicode.IsSpace r = true := h (r, bs) (List.mem_cons_self _ _)
    simp only [fieldsAux, hr, if_true]
    exact ih (fun c hc => h c (List.mem_cons_of_mem _ hc))

theorem fieldsAux_ne_nil_of_cur (chunks : List (Nat × GoString)) (cur : GoString)
    (hcur : cur ≠ []) : fieldsAux chunks cur ≠ [] := by
  induction chunks generalizing cur with
  | nil => simp [fieldsAux, hcur]
  | cons c rest ih =>
    obtain ⟨r, bs⟩ := c
    simp only [fieldsAux]
    split_ifs with h1
    · simp [hcur]
    · exact ih (cur ++ bs) (by simp [hcur])

theorem fieldsAux_ne_nil (chunks : List (Nat × GoString)) (cur : GoString)
    (hok : ∀ c ∈ chunks, c.2 ≠ []) (c : Nat × GoString) (hc : c ∈ chunks)
    (hsp : unicode.IsSpace c.1 = false) : fieldsAux chunks cur ≠ [] := by
  induction chunks generalizing cur with
  | nil => simp at hc
  | cons a rest ih =>
    obtain ⟨r, bs⟩ := a
    simp only [fieldsAux]
    by_cases hr : unicode.IsSpace r = true
    · have hne : c ≠ (r, bs) := by
        rintro rfl
        simp [hr] at hsp
      have hc' : c ∈ rest := by
        simp only [List.mem_cons] at hc
        rcases hc with hc | hc
        · exact absurd hc hne
        · exact hc
      simp only [hr, if_true]
      split_ifs
      · exact ih [] (fun c hc => hok c (List.mem_cons_of_mem _ hc)) hc'
      · simp
    · simp only [hr, Bool.false_eq_true, if_false]
      exact fieldsAux_ne_nil_of_cur rest (cur ++ bs)
        (by simp [hok (r, bs) (List.mem_cons_self _ _)])

theorem chunk_ne_nil (c : Nat × GoString) (h : ChunkOk c) : c.2 ≠ [] := by
  rcases h with ⟨_, h2⟩ | ⟨h1, _⟩
  · rw [h2]
    simp
  · exact h1

/-- The fields of a request are empty exactly when all its runes are white space. -/
theorem fields_eq_nil_iff (request : GoString) :
    strings.Fields request = [] ↔ ∀ c ∈ runes request, unicode.IsSpace c.1 = true := by
  constructor
  · intro h c hc
    by_contra hsp
    have hsp' : unicode.IsSpace c.1 = false := by simpa using hsp
    exact fieldsAux_ne_nil (runes request) []
      (fun c hc => chunk_ne_nil c (runesAux_chunkOk _ _ c hc)) c hc hsp' h
  · intro h
    exact fieldsAux_blank _ h

/-- C17: a request whose runes are all white space (the empty request among them) is
answered `Error: invalid command`; any other request has a first field, and is
answered by the handler registered under that field, or with
`Error: unknown command` when none is. -/
theorem blank_request (request : GoString) :
    ((∀ c ∈ runes request, unicode.IsSpace c.1 = true) ∧
      processRequest request = some (str "Error: invalid command")) ∨
    ((∃ c ∈ runes request, unicode.IsSpace c.1 = false) ∧
      ∃ command args, strings.Fields request = command :: args ∧
        ((command = str "createWords" ∧
            processRequest request = some (createWords (command :: args))) ∨
          (command = str "countPerfectSquares" ∧
            processRequest request = some (countPerfectSquares (command :: args))) ∨
          (command = str "convert2to10" ∧
            processRequest request = some (convertBinaryToDecimal (command :: args))) ∨
          (command = str "decodeText" ∧
            processRequest request = decodeText (command :: args)) ∨
          (command = str "checkVowels" ∧
            processRequest request = some (checkVowels (command :: args))) ∨
          (command = str "sum" ∧ processRequest request = some (sum (command :: args))) ∨
          (command = str "validPass" ∧
            processRequest request = some (validPasswords (command :: args))) ∨
          (command ∉ [str "createWords", str "countPerfectSquares", str "convert2to10",
              str "decodeText", str "checkVowels", str "sum", str "validPass"] ∧
            processRequest request = some (str "Error: unknown command")))) := by
  cases hf : strings.Fields request with
  | nil =>
    left
    refine ⟨(fields_eq_nil_iff request).mp hf, ?_⟩
    simp [processRequest, hf]
  | cons command args =>
    right
    constructor
    · by_contra hall
      have hall' : ∀ c ∈ runes request, unicode.IsSpace c.1 = true := by
        intro c hc
        by_contra hsp
        exact hall ⟨c, hc, by simpa using hsp⟩
      rw [(fields_eq_nil_iff request).mpr hall'] at hf
      simp at hf
    · refine ⟨command, args, rfl, ?_⟩
      unfold processRequest
      rw [hf]
      simp only
      by_cases h1 : command = str "createWords"
      · rw [if_pos h1]
        exact Or.inl ⟨h1, rfl⟩
      rw [if_neg h1]
      by_cases h2 : command = str "countPerfectSquares"
      · rw [if_pos h2]
        exact Or.inr (Or.inl ⟨h2, rfl⟩)
      rw [if_neg h2]
      by_cases h3 : command = str "convert2to10"
      · rw [if_pos h3]
        exact Or.inr (Or.inr (Or.inl ⟨h3, rfl⟩))
      rw [if_neg h3]
      by_cases h4 : command = str "decodeText"
      · rw [if_pos h4]
        exact Or.inr (Or.inr (Or.inr (Or.inl ⟨h4, rfl⟩)))
      rw [if_neg h4]
      by_cases h5 : command = str "checkVowels"
      · rw [if_pos h5]
        exact Or.inr (Or.inr (Or.inr (Or.inr (Or.inl ⟨h5, rfl⟩))))
      rw [if_neg h5]
      by_cases h6 : command = str "sum"
      · rw [if_pos h6]
        exact Or.inr (Or.inr (Or.inr (Or.inr (Or.inr (Or.inl ⟨h6, rfl⟩)))))
      rw [if_neg h6]
      by_cases h7 : command = str "validPass"
      · rw [if_pos h7]
        exact Or.inr (Or.inr (Or.inr (Or.inr (Or.inr (Or.inr (Or.inl ⟨h7, rfl⟩))))))
      rw [if_neg h7]
      refine Or.inr (Or.inr (Or.inr (Or.inr (Or.inr (Or.inr (Or.inr ⟨?_, rfl⟩))))))
      simp [h1, h2, h3, h4, h5, h6, h7]

/-! ## The handler `createWords` -/

theorem encodeRune_ascii (b : Nat) (h : b < 0x80) : encodeRune b = [b] := by
  simp [encodeRune, h]

theorem foldl_maxLength (words : List GoString) (m : Nat) :
    words.foldl (fun maxLength word =>
      if word.length > maxLength then word.length else maxLength) m =
      max m (maxWordLength words) := by
  induction words generalizing m with
  | nil => simp [maxWordLength]
  | cons w rest ih =>
    simp only [List.foldl_cons, ih, maxWordLength, List.map_cons, List.foldr_cons]
    split_ifs <;> omega

theorem head_le_maxWordLength (words : List GoString) :
    (words.headD []).length ≤ maxWordLength words := by
  cases words with
  | nil => simp [maxWordLength]
  | cons w rest => simp [maxWordLength]

theorem flatten_map_singleton {α : Type} (l : List α) (f : α → GoString) (g : α → Nat)
    (h : ∀ x ∈ l, f x = [g x]) : (l.map f).flatten = l.map g := by
  induction l with
  | nil => rfl
  | cons a t ih =>
    simp only [List.map_cons, List.flatten_cons, h a (List.mem_cons_self _ _)]
    rw [ih (fun x hx => h x (List.mem_cons_of_mem _ hx))]
    rfl

theorem length_flatten_const {α : Type} (l : List α) (f : α → GoString) (c : Nat)
    (h : ∀ x ∈ l, (f x).length = c) : (l.map f).flatten.length = l.length * c := by
  induction l with
  | nil => simp
  | cons a t ih =>
    simp only [List.map_cons, List.flatten_cons, List.length_append, List.length_cons,
      h a (List.mem_cons_self _ _), ih (fun x hx => h x (List.mem_cons_of_mem _ hx))]
    ring

theorem createWords_ascii (command : GoString) (args : List GoString) (hne : args ≠ [])
    (hascii : ∀ w ∈ args, ∀ b ∈ w, b < 0x80) :
    createWords (command :: args) = transposeGrid args := by
  obtain ⟨w0, rest, rfl⟩ := List.exists_cons_of_ne_nil hne
  have hlen : ¬ ((command :: w0 :: rest).length < 2) := by simp
  unfold createWords transposeGrid
  simp only [hlen, if_false, List.drop_succ_cons, List.drop_zero]
  rw [foldl_maxLength, max_eq_right (head_le_maxWordLength _)]
  congr 1
  apply List.map_congr_left
  intro i _
  congr 1
  apply flatten_map_singleton
  intro w hw
  split_ifs with hi
  · have hb : w.getD i 0 < 0x80 := by
      rw [List.getD_eq_getElem _ _ hi]
      exact hascii w hw _ (List.getElem_mem _)
    rw [encodeRune_ascii _ hb]
  · rfl

theorem transposeGrid_length (words : List GoString) :
    (transposeGrid words).length = maxWordLength words * (words.length + 1) := by
  unfold transposeGrid
  rw [length_flatten_const _ _ (words.length + 1)]
  · simp
  · intro i _
    simp

/-- C16: for a request `createWords w_1 ... w_k` with `k ≥ 1` ASCII words of greatest
length `L`, the answer is, for each `i < L` in order, the `k` bytes `w_j[i]` (a space
where `w_j` is too short) followed by a space; its length is `L * (k + 1)`. -/
theorem createWords_transposes (request : GoString) (args : List GoString)
    (hf : strings.Fields request = str "createWords" :: args) (hne : args ≠ [])
    (hascii : ∀ w ∈ args, ∀ b ∈ w, b < 0x80) :
    processRequest request = some (transposeGrid args) ∧
      (transposeGrid args).length = maxWordLength args * (args.length + 1) := by
  refine ⟨?_, transposeGrid_length args⟩
  unfold processRequest
  rw [hf]
  simp only [if_true]
  rw [createWords_ascii _ args hne hascii]

theorem createWords_transposes_witness :
    (strings.Fields (str "createWords abc de f") =
        str "createWords" :: [str "abc", str "de", str "f"] ∧
      [str "abc", str "de", str "f"] ≠ [] ∧
      ∀ w ∈ [str "abc", str "de", str "f"], ∀ b ∈ w, b < 0x80) ∧
    transposeGrid [str "abc", str "de", str "f"] = str "adf be  c   " ∧
    maxWordLength [str "abc", str "de", str "f"] = 3 ∧
    (processRequest (str "createWords abc de f") =
        some (transposeGrid [str "abc", str "de", str "f"]) ∧
      (transposeGrid [str "abc", str "de", str "f"]).length =
        maxWordLength [str "abc", str "de", str "f"] *
          ([str "abc", str "de", str "f"].length + 1)) :=
  ⟨⟨by decide, by decide, by decide⟩, by decide, by decide,
    createWords_transposes (str "createWords abc de f") [str "abc", str "de", str "f"]
      (by decide) (by decide) (by decide)⟩

/-! ## Runes of ASCII value -/

theorem acceptsSecond_bounds (b0 b1 : Nat) (h : acceptsSecond b0 b1 = true) :
    0x80 ≤ b1 ∧ b1 ≤ 0xBF ∧ (b0 = 0xE0 → 0xA0 ≤ b1) ∧ (b0 = 0xF0 → 0x90 ≤ b1) := by
  unfold acceptsSecond isCont at h
  split_ifs at h with h1 h2 h3 h4 <;> simp only [decide_eq_true_eq] at h <;>
    refine ⟨by omega, by omega, fun _ => by omega, fun _ => by omega⟩

theorem decodeRune_high_rune (b : Nat) (rest : GoString) (h : 0x80 ≤ b) :
    0x80 ≤ (decodeRune (b :: rest)).1 := by
  have hb : ¬ b < 0x80 := by omega
  have herr : 0x80 ≤ runeError := by decide
  unfold decodeRune
  simp only [hb, if_false]
  split_ifs with h2 h3 h4
  · split
    · split_ifs
      · simp only
        omega
      · exact herr
    · exact herr
  · split
    · rename_i b1 b2 tail
      split_ifs with hacc
      · simp only [Bool.and_eq_true] at hacc
        obtain ⟨hb1, hb1', h224, _⟩ := acceptsSecond_bounds b b1 hacc.1
        simp only
        by_cases h0 : b = 0xE0
        · have := h224 h0
          omega
        · omega
      · exact herr
    · exact herr
  · split
    · rename_i b1 b2 b3 tail
      split_ifs with hacc
      · simp only [Bool.and_eq_true] at hacc
        obtain ⟨hb1, hb1', _, h240⟩ := acceptsSecond_bounds b b1 hacc.1.1
        simp only
        by_cases h0 : b = 0xF0
        · have := h240 h0
          omega
        · omega
      · exact herr
    · exact herr
  · exact herr

theorem decodeRune_width_pos (b : Nat) (rest : GoString) : 1 ≤ (decodeRune (b :: rest)).2 := by
  by_cases h : b < 0x80
  · rw [decodeRune_ascii b rest h]
  · exact (decodeRune_high b rest (by omega)).1

/-- A rune below `0x80` of the decomposition stands for the byte of that value. -/
theorem runesAux_low (fuel : Nat) (s : GoString) :
    ∀ c ∈ runesAux fuel s, c.1 < 0x80 → c.2 = [c.1] := by
  induction fuel generalizing s with
  | zero => simp [runesAux]
  | succ n ih =>
    cases s with
    | nil => simp [runesAux]
    | cons b rest =>
      intro c hc hlow
      simp only [runesAux, List.mem_cons] at hc
      rcases hc with rfl | hc
      · by_cases hb : b < 0x80
        · rw [decodeRune_ascii b rest hb]
          rfl
        · have := decodeRune_high_rune b rest (by omega)
          simp only at hlow
          omega
      · exact ih _ c hc hlow

/-- The bytes of the runes, put back together, are the string. -/
theorem runesAux_bytes (fuel : Nat) (s : GoString) (h : s.length ≤ fuel) :
    runeBytes (runesAux fuel s) = s := by
  induction fuel generalizing s with
  | zero =>
    have : s = [] := List.eq_nil_of_length_eq_zero (by omega)
    subst this
    rfl
  | succ n ih =>
    cases s with
    | nil => rfl
    | cons b rest =>
      have hw := decodeRune_width_pos b rest
      simp only [runesAux, runeBytes, List.map_cons, List.flatten_cons]
      have hlen : ((b :: rest).drop (decodeRune (b :: rest)).2).length ≤ n := by
        simp only [List.length_drop, List.length_cons] at h ⊢
        omega
      have := ih _ hlen
      unfold runeBytes at this
      rw [this, List.take_append_drop]

theorem runes_bytes (s : GoString) : runeBytes (runes s) = s :=
  runesAux_bytes _ s (le_refl _)

/-- A string all of whose runes are below `0x80` is made of ASCII bytes. -/
theorem ascii_of_runes (s : GoString) (h : ∀ c ∈ runes s, c.1 < 0x80) : ∀ b ∈ s, b < 0x80 := by
  intro b hb
  rw [← runes_bytes s] at hb
  simp only [runeBytes, List.mem_flatten, List.mem_map] at hb
  obtain ⟨l, ⟨c, hc, rfl⟩, hbl⟩ := hb
  have hlow := h c hc
  rw [runesAux_low _ _ c hc hlow] at hbl
  simp only [List.mem_singleton] at hbl
  omega

/-- A test that only ASCII values pass holds of all runes exactly when it holds of
all bytes. -/
theorem runes_all_iff (P : Nat → Bool) (hP : ∀ r, P r = true → r < 0x80) (s : GoString) :
    ((runes s).all fun c => P c.1) = true ↔ ∀ b ∈ s, P b = true := by
  constructor
  · intro h
    simp only [List.all_eq_true] at h
    have hascii := ascii_of_runes s (fun c hc => hP _ (h c hc))
    rw [runes_ascii s hascii] at h
    intro b hb
    exact h (b, [b]) (by simp [hb])
  · intro h
    rw [runes_ascii s (fun b hb => hP b (h b hb))]
    simp only [List.all_eq_true, List.mem_map]
    rintro c ⟨b, hb, rfl⟩
    exact h b hb

theorem runes_any_ascii (Q : Nat → Bool) (s : GoString) (hs : ∀ b ∈ s, b < 0x80) :
    ((runes s).any fun c => Q c.1) = s.any Q := by
  rw [runes_ascii s hs]
  induction s with
  | nil => rfl
  | cons a t ih =>
    simp only [List.map_cons, List.any_cons]
    rw [ih (fun b hb => hs b (List.mem_cons_of_mem _ hb))]

theorem containsRune_ascii (s : GoString) (hs : ∀ b ∈ s, b < 0x80) (r : Nat) :
    strings.ContainsRune s r = decide (r ∈ s) := by
  unfold strings.ContainsRune
  rw [runes_ascii s hs]
  induction s with
  | nil => simp
  | cons a t ih =>
    have := ih (fun b hb => hs b (List.mem_cons_of_mem _ hb))
    simp only [List.map_cons, List.any_cons, this, List.mem_cons]
    by_cases h1 : a = r
    · simp [h1]
    · have h2 : ¬ r = a := fun h => h1 h.symm
      simp [h1, h2]

/-! ## The handler `validPasswords` -/

theorem foldl_filter {α : Type} (p : α → Bool) (l acc : List α) :
    l.foldl (fun acc x => if p x = true then acc ++ [x] else acc) acc = acc ++ l.filter p := by
  induction l generalizing acc with
  | nil => simp
  | cons a t ih =>
    simp only [List.foldl_cons, ih, List.filter_cons]
    split_ifs <;> simp

theorem passwordClass_eq (r : Nat) : passwordClass r = allowedByte r := by
  unfold passwordClass allowedByte
  rw [containsRune_ascii _ (by decide)]

theorem allowedByte_ascii (r : Nat) (h : allowedByte r = true) : r < 0x80 := by
  unfold allowedByte at h
  simp only [Bool.or_eq_true, decide_eq_true_eq] at h
  rcases h with h | h
  · omega
  · revert h
    have : str "!@#$%^&*()_+=-" = [33, 64, 35, 36, 37, 94, 38, 42, 40, 41, 95, 43, 61, 45] := by
      decide
    rw [this]
    simp only [List.mem_cons, List.mem_singleton, List.not_mem_nil, or_false]
    omega

theorem passwordAccepted_eq (t : GoString) : passwordAccepted t = isValidPassword t := by
  unfold passwordAccepted isValidPassword passwordRegexMatch
  have hall : ((runes t).all fun c => passwordClass c.1) = t.all allowedByte := by
    have h1 := runes_all_iff allowedByte allowedByte_ascii t
    have h2 : (fun c : Nat × GoString => passwordClass c.1) = fun c => allowedByte c.1 := by
      funext c
      exact passwordClass_eq c.1
    rw [h2]
    rw [Bool.eq_iff_iff, h1, List.all_eq_true]
  rw [hall]
  by_cases hok : t.all allowedByte = true
  · have hascii : ∀ b ∈ t, b < 0x80 := fun b hb =>
      allowedByte_ascii b (List.all_eq_true.mp hok b hb)
    have hspecial : (fun c : Nat × GoString =>
        strings.ContainsRune (str "!@#$%^&*()_+=-") c.1) =
        fun c => (fun b => decide (b ∈ str "!@#$%^&*()_+=-")) c.1 := by
      funext c
      exact containsRune_ascii _ (by decide) c.1
    rw [hspecial, runes_any_ascii (fun b => decide (97 ≤ b ∧ b ≤ 122)) t hascii,
      runes_any_ascii (fun b => decide (65 ≤ b ∧ b ≤ 90)) t hascii,
      runes_any_ascii (fun b => decide (48 ≤ b ∧ b ≤ 57)) t hascii,
      runes_any_ascii (fun b => decide (b ∈ str "!@#$%^&*()_+=-")) t hascii, hok]
    by_cases hne : t = []
    · subst hne
      rfl
    · simp [hne]
  · simp only [Bool.not_eq_true] at hok
    simp [hok]

theorem validPasswords_eq (parts : List GoString) (h : ¬ parts.length < 2) :
    validPasswords parts = strings.Join (parts.filter isValidPassword) (str ", ") := by
  unfold validPasswords
  rw [if_neg h]
  simp only
  congr 1
  have hfun : (fun (validPasswords : List GoString) (password : GoString) =>
      if passwordRegexMatch password = true then
        if (((runes password).any fun c => decide (97 ≤ c.1 ∧ c.1 ≤ 122)) &&
            ((runes password).any fun c => decide (65 ≤ c.1 ∧ c.1 ≤ 90)) &&
            ((runes password).any fun c => decide (48 ≤ c.1 ∧ c.1 ≤ 57)) &&
            ((runes password).any fun c =>
              strings.ContainsRune (str "!@#$%^&*()_+=-") c.1)) = true
        then validPasswords ++ [password] else validPasswords
      else validPasswords) =
      fun validPasswords password =>
        if isValidPassword password = true then validPasswords ++ [password]
        else validPasswords := by
    funext acc password
    rw [← passwordAccepted_eq]
    unfold passwordAccepted
    by_cases h1 : passwordRegexMatch password = true
    · rw [if_pos h1, h1, Bool.true_and]
    · rw [if_neg h1]
      simp only [Bool.not_eq_true] at h1
      rw [h1, Bool.false_and]
      simp
  rw [hfun, foldl_filter]
  simp

/-- C13: a request `validPass t_1 ... t_k` with `k ≥ 1` is answered with the fields
`t_i` that are valid passwords (allowed bytes only, with a lowercase letter, an
uppercase letter, a digit and a special character), in order, joined by `, `; the
field of the command name is not among them. -/
theorem validPass_lists_valid (request : GoString) (args : List GoString)
    (hf : strings.Fields request = str "validPass" :: args) (hne : args ≠ []) :
    processRequest request =
      some (strings.Join (args.filter isValidPassword) (str ", ")) := by
  have h1 : str "validPass" ≠ str "createWords" := by decide
  have h2 : str "validPass" ≠ str "countPerfectSquares" := by decide
  have h3 : str "validPass" ≠ str "convert2to10" := by decide
  have h4 : str "validPass" ≠ str "decodeText" := by decide
  have h5 : str "validPass" ≠ str "checkVowels" := by decide
  have h6 : str "validPass" ≠ str "sum" := by decide
  have hcmd : isValidPassword (str "validPass") = false := by decide
  have hlen : ¬ (str "validPass" :: args).length < 2 := by
    have := List.length_pos.mpr hne
    simp only [List.length_cons]
    omega
  unfold processRequest
  rw [hf]
  simp only [h1, h2, h3, h4, h5, h6, if_false, if_true]
  rw [validPasswords_eq _ hlen, List.filter_cons, hcmd]
  simp

theorem validPass_lists_valid_witness :
    (strings.Fields (str "validPass Abc123! abc ABC123!") =
        str "validPass" :: [str "Abc123!", str "abc", str "ABC123!"] ∧
      [str "Abc123!", str "abc", str "ABC123!"] ≠ []) ∧
    strings.Join ([str "Abc123!", str "abc", str "ABC123!"].filter isValidPassword)
      (str ", ") = str "Abc123!" ∧
    processRequest (str "validPass Abc123! abc ABC123!") =
      some (strings.Join ([str "Abc123!", str "abc", str "ABC123!"].filter isValidPassword)
        (str ", ")) :=
  ⟨⟨by decide, by decide⟩, by decide,
    validPass_lists_valid (str "validPass Abc123! abc ABC123!")
      [str "Abc123!", str "abc", str "ABC123!"] (by decide) (by decide)⟩

/-! ## The handler `convertBinaryToDecimal` -/

theorem foldl_filter_map {α β : Type} (p : α → Bool) (f : α → β) (l : List α) (acc : List β) :
    l.foldl (fun acc x => if p x = true then acc ++ [f x] else acc) acc =
      acc ++ (l.filter p).map f := by
  induction l generalizing acc with
  | nil => simp
  | cons a t ih =>
    simp only [List.foldl_cons, ih, List.filter_cons]
    split_ifs <;> simp

theorem isBinary_iff (s : GoString) :
    isBinary s = s.all fun b => decide (b = 48 ∨ b = 49) := by
  unfold isBinary
  have h := runes_all_iff (fun r => !(r != 48 && r != 49))
    (by
      intro r hr
      by_contra hlt
      have h1 : (r != 48) = true := by
        simp only [bne_iff_ne, ne_eq]
        omega
      have h2 : (r != 49) = true := by
        simp only [bne_iff_ne, ne_eq]
        omega
      simp [h1, h2] at hr) s
  rw [Bool.eq_iff_iff, h, List.all_eq_true]
  constructor
  · intro hb b hbs
    have := hb b hbs
    simp at this
    simp
    omega
  · intro hb b hbs
    have := hb b hbs
    simp at this
    simp
    omega

theorem binaryValue_fold_le (s : GoString) (n0 : Nat) :
    n0 ≤ s.foldl (fun n b => n * 2 + (b - 48)) n0 := by
  induction s generalizing n0 with
  | nil => exact le_refl _
  | cons a t ih =>
    simp only [List.foldl_cons]
    have := ih (n0 * 2 + (a - 48))
    omega

theorem parseUintLoop_binary (s : GoString) (hs : ∀ b ∈ s, b = 48 ∨ b = 49)
    (n0 : Nat) (hn0 : n0 < 2 ^ 64) :
    parseUintLoop 2 s n0 =
      if s.foldl (fun n b => n * 2 + (b - 48)) n0 < 2 ^ 64
      then (s.foldl (fun n b => n * 2 + (b - 48)) n0, NumError.ok)
      else (2 ^ 64 - 1, NumError.errRange) := by
  induction s generalizing n0 with
  | nil => simp only [parseUintLoop, List.foldl_nil, hn0, if_true]
  | cons a t ih =>
    have ha : a = 48 ∨ a = 49 := hs a (List.mem_cons_self _ _)
    have hd : digitOfByte a = some (a - 48) := by
      rcases ha with rfl | rfl <;> decide
    have hbase : ¬ (2 ≤ a - 48) := by omega
    simp only [parseUintLoop, hd, hbase, if_false, List.foldl_cons]
    by_cases hov : 2 ^ 64 ≤ n0 * 2 + (a - 48)
    · have hle := binaryValue_fold_le t (n0 * 2 + (a - 48))
      have hnot : ¬ (t.foldl (fun n b => n * 2 + (b - 48)) (n0 * 2 + (a - 48)) < 2 ^ 64) := by
        omega
      simp only [hov, if_true, hnot, if_false]
    · simp only [hov, if_false]
      exact ih (fun b hb => hs b (List.mem_cons_of_mem _ hb)) _ (by omega)

theorem parseInt_binary (s : GoString) (hs : isBinaryItem s = true) :
    strconv.ParseInt s 2 =
      if binaryValue s < 2 ^ 63 then ((binaryValue s : Int), false) else (maxInt, true) := by
  unfold isBinaryItem at hs
  simp only [Bool.and_eq_true, decide_eq_true_eq, List.all_eq_true] at hs
  obtain ⟨hne, hall⟩ := hs
  unfold strconv.ParseInt strconv.ParseUint
  obtain ⟨a, t, rfl⟩ := List.exists_cons_of_ne_nil hne
  have ha : a = 48 ∨ a = 49 := hall a (List.mem_cons_self _ _)
  have h45 : a ≠ 45 := by omega
  have h43 : a ≠ 43 := by omega
  simp only [List.head?_cons, Option.some.injEq, h45, h43, or_self, if_false, decide_False,
    Bool.false_eq_true, hne]
  rw [parseUintLoop_binary (a :: t) hall 0 (by norm_num)]
  unfold binaryValue
  by_cases h63 : List.foldl (fun n b => n * 2 + (b - 48)) 0 (a :: t) < 2 ^ 63
  · have h64 : List.foldl (fun n b => n * 2 + (b - 48)) 0 (a :: t) < 2 ^ 64 := by omega
    simp only [h63, h64, if_true]
    simp
  · by_cases h64 : List.foldl (fun n b => n * 2 + (b - 48)) 0 (a :: t) < 2 ^ 64
    · simp only [h63, h64, if_true, if_false]
      simp
    · simp only [h63, h64, if_false]
      simp

theorem itoa_natCast (n : Nat) : strconv.Itoa (n : Int) = natDigits n := by
  unfold strconv.Itoa
  have : ¬ ((n : Int) < 0) := by omega
  simp [this]

theorem binary_item_accepted (s : GoString) :
    (isBinary s && decide ((strconv.ParseInt s 2).2 = false)) =
      (isBinaryItem s && decide (binaryValue s < 2 ^ 63)) ∧
    ((isBinaryItem s && decide (binaryValue s < 2 ^ 63)) = true →
      strconv.Itoa (strconv.ParseInt s 2).1 = natDigits (binaryValue s)) := by
  by_cases hitem : isBinaryItem s = true
  · have hbin : isBinary s = true := by
      rw [isBinary_iff]
      unfold isBinaryItem at hitem
      simp only [Bool.and_eq_true] at hitem
      exact hitem.2
    rw [parseInt_binary s hitem, hitem, hbin]
    by_cases h63 : binaryValue s < 2 ^ 63
    · simp only [h63, if_true, decide_True, Bool.and_self, true_and]
      intro _
      exact itoa_natCast _
    · rw [if_neg h63]
      have hd : decide (binaryValue s < 2 ^ 63) = false := by
        simp only [decide_eq_false_iff_not]
        exact h63
      rw [hd]
      simp
  · simp only [Bool.not_eq_true] at hitem
    rw [hitem]
    simp only [Bool.false_and, Bool.false_eq_true, false_implies, and_true]
    by_cases hne : s = []
    · subst hne
      decide
    · have hbin : isBinary s = false := by
        rw [isBinary_iff]
        unfold isBinaryItem at hitem
        simpa [hne] using hitem
      simp [hbin]

theorem convertBinaryToDecimal_eq (command : GoString) (args : List GoString)
    (hne : args ≠ []) :
    convertBinaryToDecimal (command :: args) =
      if convertedValues args = [] then str "No valid binary strings found."
      else str "Converted values: " ++ strings.Join (convertedValues args) (str ", ") := by
  have hlen : ¬ (command :: args).length < 2 := by
    have := List.length_pos.mpr hne
    simp only [List.length_cons]
    omega
  have hres : List.foldl (fun result s =>
      if (isBinary (strings.TrimSpace s) &&
          decide ((strconv.ParseInt (strings.TrimSpace s) 2).2 = false)) = true
      then result ++ [strconv.Itoa (strconv.ParseInt (strings.TrimSpace s) 2).1]
      else result) [] (strings.Split (strings.Join args (str " ")) 44) =
      convertedValues args := by
    rw [foldl_filter_map (fun s => isBinary (strings.TrimSpace s) &&
        decide ((strconv.ParseInt (strings.TrimSpace s) 2).2 = false))
      (fun s => strconv.Itoa (strconv.ParseInt (strings.TrimSpace s) 2).1)]
    unfold convertedValues argumentItems
    rw [List.nil_append, List.filter_map, List.map_map]
    have hfilter : List.filter (fun s => isBinary (strings.TrimSpace s) &&
          decide ((strconv.ParseInt (strings.TrimSpace s) 2).2 = false))
        (strings.Split (strings.Join args (str " ")) 44) =
        List.filter ((fun s => isBinaryItem s && decide (binaryValue s < 2 ^ 63)) ∘
          strings.TrimSpace) (strings.Split (strings.Join args (str " ")) 44) := by
      apply List.filter_congr
      intro s _
      exact (binary_item_accepted (strings.TrimSpace s)).1
    rw [hfilter]
    apply List.map_congr_left
    intro s hs
    have hp := (List.mem_filter.mp hs).2
    exact (binary_item_accepted (strings.TrimSpace s)).2 hp
  unfold convertBinaryToDecimal
  rw [if_neg hlen]
  simp only [List.drop_succ_cons, List.drop_zero]
  rw [hres]
  by_cases h : convertedValues args = []
  · simp [h]
  · have : (convertedValues args).length ≠ 0 := by
      intro h0
      exact h (List.eq_nil_of_length_eq_zero h0)
    simp [h, this]

theorem processRequest_convert2to10 (request : GoString) (args : List GoString)
    (hf : strings.Fields request = str "convert2to10" :: args) :
    processRequest request = some (convertBinaryToDecimal (str "convert2to10" :: args)) := by
  have h1 : str "convert2to10" ≠ str "createWords" := by decide
  have h2 : str "convert2to10" ≠ str "countPerfectSquares" := by decide
  unfold processRequest
  rw [hf]
  simp only [h1, h2, if_false, if_true]

/-- C12, as stated, fails for a long item: the item made of 64 characters `1` is not
empty and holds binary digits only, yet `convert2to10` does not list it, its value
being beyond `int64`. -/
theorem convert2to10_drops_long_item :
    strings.Fields (str "convert2to10 " ++ List.replicate 64 49) =
      [str "convert2to10", List.replicate 64 49] ∧
    argumentItems [List.replicate 64 49] = [List.replicate 64 49] ∧
    isBinaryItem (List.replicate 64 49) = true ∧
    processRequest (str "convert2to10 " ++ List.replicate 64 49) =
      some (str "No valid binary strings found.") := by
  decide

/-- C12, amended: a request `convert2to10` with arguments is answered
`Converted values: ` followed by the decimal values, joined by `, ` and in order, of
the items of the argument text (split at the commas, trimmed) that are not empty,
hold the characters `0` and `1` only and denote a value below `2 ^ 63`; it is
answered `No valid binary strings found.` exactly when there is no such item. -/
theorem convert2to10_lists (request : GoString) (args : List GoString)
    (hf : strings.Fields request = str "convert2to10" :: args) (hne : args ≠ []) :
    processRequest request =
      some (if convertedValues args = [] then str "No valid binary strings found."
        else str "Converted values: " ++ strings.Join (convertedValues args) (str ", ")) ∧
    (processRequest request = some (str "No valid binary strings found.") ↔
      convertedValues args = []) := by
  have hp := processRequest_convert2to10 request args hf
  rw [convertBinaryToDecimal_eq _ args hne] at hp
  refine ⟨hp, ?_⟩
  rw [hp]
  by_cases h : convertedValues args = []
  · simp [h]
  · simp only [h, if_false, Option.some.injEq, iff_false]
    intro heq
    have hhead := congrArg List.head? heq
    have h1 : (str "Converted values: " ++ strings.Join (convertedValues args) (str ", ")).head?
        = some 67 := by
      have : str "Converted values: " = 67 :: str "onverted values: " := by decide
      rw [this]
      rfl
    have h2 : (str "No valid binary strings found.").head? = some 78 := by decide
    rw [h1, h2] at hhead
    simp at hhead

theorem convert2to10_lists_witness :
    (strings.Fields (str "convert2to10 101,2,110") = str "convert2to10" :: [str "101,2,110"] ∧
      [str "101,2,110"] ≠ []) ∧
    argumentItems [str "101,2,110"] = [str "101", str "2", str "110"] ∧
    convertedValues [str "101,2,110"] = [str "5", str "6"] ∧
    strings.Join (convertedValues [str "101,2,110"]) (str ", ") = str "5, 6" ∧
    (processRequest (str "convert2to10 101,2,110") =
      some (if convertedValues [str "101,2,110"] = []
        then str "No valid binary strings found."
        else str "Converted values: " ++
          strings.Join (convertedValues [str "101,2,110"]) (str ", ")) ∧
    (processRequest (str "convert2to10 101,2,110") =
        some (str "No valid binary strings found.") ↔
      convertedValues [str "101,2,110"] = [])) :=
  ⟨⟨by decide, by decide⟩, by decide, by decide, by decide,
    convert2to10_lists (str "convert2to10 101,2,110") [str "101,2,110"] (by decide)
      (by decide)⟩

/-! ## The handler `checkVowels` -/

theorem foldl_count {α : Type} (p : α → Bool) (l : List α) (n0 : Nat) :
    l.foldl (fun n x => if p x = true then n + 1 else n) n0 = n0 + (l.filter p).length := by
  induction l generalizing n0 with
  | nil => simp
  | cons a t ih =>
    simp only [List.foldl_cons, ih, List.filter_cons]
    split_ifs
    · simp
      omega
    · simp

theorem isVowel_eq (c : Nat) : isVowel c = decide (c ∈ str "aeiouAEIOU") := by
  unfold isVowel
  exact containsRune_ascii _ (by decide) c

theorem vowelCount_eq (word : GoString) :
    (rangeString (runes word) 0).foldl (fun vowelCount ic =>
      if (decide (ic.1 % 2 = 0) && isVowel ic.2) = true then vowelCount + 1
      else vowelCount) 0 = evenOffsetVowels word := by
  have hfun : (fun (vowelCount : Nat) (ic : Nat × Nat) =>
      if (decide (ic.1 % 2 = 0) && isVowel ic.2) = true then vowelCount + 1
      else vowelCount) =
      fun vowelCount ic =>
        if (decide (ic.1 % 2 = 0) && decide (ic.2 ∈ str "aeiouAEIOU")) = true
        then vowelCount + 1 else vowelCount := by
    funext n ic
    rw [isVowel_eq]
  rw [hfun, foldl_count]
  unfold evenOffsetVowels
  simp

theorem checkVowels_eq (command : GoString) (args : List GoString) (hne : args ≠ []) :
    checkVowels (command :: args) =
      if (argumentItems args).filter vowelQualifies = [] then str "Nu sunt cuvinte valide"
      else strings.Join ((argumentItems args).filter vowelQualifies) (str " ") := by
  have hlen : ¬ (command :: args).length < 2 := by
    have := List.length_pos.mpr hne
    simp only [List.length_cons]
    omega
  unfold checkVowels
  rw [if_neg hlen]
  simp only [List.drop_succ_cons, List.drop_zero, vowelCount_eq, gt_iff_lt]
  have hres : List.foldl (fun validWords word =>
      if (decide (0 < evenOffsetVowels (strings.TrimSpace word)) &&
          decide (evenOffsetVowels (strings.TrimSpace word) % 2 = 0)) = true
      then validWords ++ [strings.TrimSpace word] else validWords) []
      (strings.Split (strings.Join args (str " ")) 44) =
      (argumentItems args).filter vowelQualifies := by
    rw [foldl_filter_map (fun word => decide (0 < evenOffsetVowels (strings.TrimSpace word)) &&
        decide (evenOffsetVowels (strings.TrimSpace word) % 2 = 0)) strings.TrimSpace]
    unfold argumentItems
    rw [List.nil_append, List.filter_map]
    rfl
  rw [hres]
  by_cases h : (argumentItems args).filter vowelQualifies = []
  · simp [h]
  · have : ((argumentItems args).filter vowelQualifies).length ≠ 0 := by
      intro h0
      exact h (List.eq_nil_of_length_eq_zero h0)
    simp [h, this]

theorem processRequest_checkVowels (request : GoString) (args : List GoString)
    (hf : strings.Fields request = str "checkVowels" :: args) :
    processRequest request = some (checkVowels (str "checkVowels" :: args)) := by
  have h1 : str "checkVowels" ≠ str "createWords" := by decide
  have h2 : str "checkVowels" ≠ str "countPerfectSquares" := by decide
  have h3 : str "checkVowels" ≠ str "convert2to10" := by decide
  have h4 : str "checkVowels" ≠ str "decodeText" := by decide
  unfold processRequest
  rw [hf]
  simp only [h1, h2, h3, h4, if_false, if_true]

theorem rangeString_ascii (w : GoString) (off : Nat) :
    rangeString (w.map fun b => (b, [b])) off = w.enumFrom off := by
  induction w generalizing off with
  | nil => rfl
  | cons a t ih =>
    simp only [List.map_cons, rangeString, List.length_singleton, List.enumFrom_cons, ih]

/-- In an ASCII word the byte offset of a character is its position. -/
theorem evenOffsetVowels_ascii (w : GoString) (hw : ∀ b ∈ w, b < 0x80) :
    evenOffsetVowels w = evenPositionVowels w := by
  unfold evenOffsetVowels evenPositionVowels
  rw [runes_ascii w hw, rangeString_ascii, List.map_map]
  have : (Prod.fst ∘ fun b : Nat => (b, [b])) = id := by
    funext b
    rfl
  rw [this, List.map_id]
  rfl

/-- C14, as stated, fails twice.  In `aéa` two vowels stand at even character
positions, but `é` takes two bytes, so only one vowel starts at an even byte offset
and the word is not kept.  And the kept word `Nu sunt cuvinte valide` makes the
answer that text although a word qualifies. -/
theorem checkVowels_uses_byte_offsets :
    (evenPositionVowels (str "aéa") = 2 ∧ evenOffsetVowels (str "aéa") = 1 ∧
      processRequest (str "checkVowels aéa") = some (str "Nu sunt cuvinte valide")) ∧
    (vowelQualifies (str "Nu sunt cuvinte valide") = true ∧
      evenPositionVowels (str "Nu sunt cuvinte valide") = 2 ∧
      processRequest (str "checkVowels Nu sunt cuvinte valide") =
        some (str "Nu sunt cuvinte valide")) := by
  decide

/-- C14, amended: a request `checkVowels` with arguments is answered with the words
of the argument text (split at the commas, trimmed), in order and joined by a space,
in which the number of vowels starting at an even byte offset is even and not zero,
and with `Nu sunt cuvinte valide` when there is no such word; in an ASCII word the
byte offsets are the character positions. -/
theorem checkVowels_selects (request : GoString) (args : List GoString)
    (hf : strings.Fields request = str "checkVowels" :: args) (hne : args ≠ []) :
    processRequest request =
      some (if (argumentItems args).filter vowelQualifies = []
        then str "Nu sunt cuvinte valide"
        else strings.Join ((argumentItems args).filter vowelQualifies) (str " ")) ∧
    ∀ w, (∀ b ∈ w, b < 0x80) →
      vowelQualifies w =
        (decide (0 < evenPositionVowels w) && decide (evenPositionVowels w % 2 = 0)) := by
  constructor
  · rw [processRequest_checkVowels request args hf, checkVowels_eq _ args hne]
  · intro w hw
    unfold vowelQualifies
    rw [evenOffsetVowels_ascii w hw]

theorem checkVowels_selects_witness :
    (strings.Fields (str "checkVowels aba,abe, xax") =
        str "checkVowels" :: [str "aba,abe,", str "xax"] ∧
      [str "aba,abe,", str "xax"] ≠ []) ∧
    argumentItems [str "aba,abe,", str "xax"] = [str "aba", str "abe", str "xax"] ∧
    (argumentItems [str "aba,abe,", str "xax"]).filter vowelQualifies =
      [str "aba", str "abe"] ∧
    (processRequest (str "checkVowels aba,abe, xax") =
      some (if (argumentItems [str "aba,abe,", str "xax"]).filter vowelQualifies = []
        then str "Nu sunt cuvinte valide"
        else strings.Join ((argumentItems [str "aba,abe,", str "xax"]).filter vowelQualifies)
          (str " ")) ∧
    ∀ w, (∀ b ∈ w, b < 0x80) →
      vowelQualifies w =
        (decide (0 < evenPositionVowels w) && decide (evenPositionVowels w % 2 = 0))) :=
  ⟨⟨by decide, by decide⟩, by decide, by decide,
    checkVowels_selects (str "checkVowels aba,abe, xax") [str "aba,abe,", str "xax"]
      (by decide) (by decide)⟩

/-! ## The square root of a `float64` -/

theorem excessBits_spec (fuel : Nat) :
    ∀ n, n < 2 ^ (53 + fuel) →
      n < 2 ^ (53 + excessBits fuel n) ∧
        (excessBits fuel n = 0 ∨ 2 ^ (52 + excessBits fuel n) ≤ n) := by
  induction fuel with
  | zero =>
    intro n hn
    simp only [excessBits]
    simpa using hn
  | succ k ih =>
    intro n hn
    simp only [excessBits]
    by_cases h53 : n < 2 ^ 53
    · simp only [h53, if_true]
      simp only [Nat.add_zero, true_or, and_true]
    · simp only [h53, if_false]
      have hhalf : n / 2 < 2 ^ (53 + k) := by
        have : (2 : Nat) ^ (53 + (k + 1)) = 2 * 2 ^ (53 + k) := by
          rw [← Nat.add_assoc, pow_succ]
          ring
        rw [this] at hn
        omega
      obtain ⟨h1, h2⟩ := ih (n / 2) hhalf
      have e1 : (2 : Nat) ^ (53 + (excessBits k (n / 2) + 1)) =
          2 * 2 ^ (53 + excessBits k (n / 2)) := by
        rw [← Nat.add_assoc, pow_succ]
        ring
      have e2 : (2 : Nat) ^ (52 + (excessBits k (n / 2) + 1)) =
          2 * 2 ^ (52 + excessBits k (n / 2)) := by
        rw [← Nat.add_assoc, pow_succ]
        ring
      rw [e1, e2]
      refine ⟨by omega, Or.inr ?_⟩
      rcases h2 with h2 | h2
      · rw [h2]
        simp only [Nat.add_zero]
        have : ¬ n < 2 ^ 53 := h53
        norm_num at this ⊢
        omega
      · omega

theorem excessBits_le (n : Nat) (hn : n < 2 ^ 63) : excessBits 64 n ≤ 10 := by
  obtain ⟨_, h2⟩ := excessBits_spec 64 n
    (lt_of_lt_of_le hn (Nat.pow_le_pow_right (by norm_num) (by norm_num)))
  rcases h2 with h2 | h2
  · omega
  · have hlt : (2 : Nat) ^ (52 + excessBits 64 n) < 2 ^ 63 := lt_of_le_of_lt h2 hn
    have := (Nat.pow_lt_pow_iff_right (by norm_num : 1 < 2)).mp hlt
    omega

/-- The conversion to `float64` is exact below `2 ^ 53` and has a relative error of
at most `2 ^ -53` for an `int`. -/
theorem float64OfNat_error (n : Nat) (hn : n < 2 ^ 63) :
    (n < 2 ^ 53 → float64OfNat n = n) ∧
      2 ^ 53 * (float64OfNat n - n) ≤ n ∧ 2 ^ 53 * (n - float64OfNat n) ≤ n := by
  obtain ⟨h1, h2⟩ := excessBits_spec 64 n
    (lt_of_lt_of_le hn (Nat.pow_le_pow_right (by norm_num) (by norm_num)))
  have hle := excessBits_le n hn
  unfold float64OfNat
  simp only
  generalize excessBits 64 n = e at h1 h2 hle
  refine ⟨?_, ?_, ?_⟩ <;> (try intro _) <;> split_ifs <;> interval_cases e <;> omega

theorem intSqrtAux_spec (k : Nat) :
    ∀ n acc, acc * acc ≤ n → n < (acc + 2 ^ k) * (acc + 2 ^ k) →
      intSqrtAux k n acc * intSqrtAux k n acc ≤ n ∧
        n < (intSqrtAux k n acc + 1) * (intSqrtAux k n acc + 1) := by
  induction k with
  | zero =>
    intro n acc h1 h2
    simp only [intSqrtAux]
    simpa using ⟨h1, h2⟩
  | succ k ih =>
    intro n acc h1 h2
    simp only [intSqrtAux]
    have hpow : acc + 2 ^ (k + 1) = acc + 2 ^ k + 2 ^ k := by
      rw [pow_succ]
      omega
    rw [hpow] at h2
    split_ifs with hc
    · exact ih n (acc + 2 ^ k) hc h2
    · exact ih n acc h1 (by omega)

theorem intSqrt_spec (n : Nat) (hn : n < 2 ^ 64) :
    intSqrt n * intSqrt n ≤ n ∧ n < (intSqrt n + 1) * (intSqrt n + 1) := by
  unfold intSqrt
  apply intSqrtAux_spec
  · simp
  · norm_num
    norm_num at hn
    exact hn

theorem sqrt_unique (x r s : Nat) (hr1 : r * r ≤ x) (hr2 : x < (r + 1) * (r + 1))
    (hs1 : s * s ≤ x) (hs2 : x < (s + 1) * (s + 1)) : r = s := by
  by_contra hne
  rcases Nat.lt_or_gt_of_ne hne with h | h
  · have : (r + 1) * (r + 1) ≤ s * s := Nat.mul_le_mul h h
    omega
  · have : (s + 1) * (s + 1) ≤ r * r := Nat.mul_le_mul h h
    omega

theorem leadingBit_spec (fuel : Nat) :
    ∀ t, 1 ≤ t → t < 2 ^ fuel →
      2 ^ leadingBit fuel t ≤ t ∧ t < 2 ^ (leadingBit fuel t + 1) := by
  induction fuel with
  | zero =>
    intro t h1 h2
    simp at h2
    omega
  | succ k ih =>
    intro t h1 h2
    simp only [leadingBit]
    by_cases h : t < 2
    · simp only [h, if_true]
      norm_num
      omega
    · simp only [h, if_false]
      have hhalf : t / 2 < 2 ^ k := by
        rw [pow_succ] at h2
        omega
      obtain ⟨h3, h4⟩ := ih (t / 2) (by omega) hhalf
      simp only [pow_succ] at h4 ⊢
      omega

theorem round_up_excluded (s x J : Nat) (hJ : 2 ≤ J) (hx2 : x ≤ s * s + s) :
    ¬ (((s + 1) * J - 1) ^ 2 ≤ x * (J * J)) := by
  intro h
  have hA : 1 ≤ (s + 1) * J := by nlinarith
  obtain ⟨A, hAe⟩ : ∃ A, (s + 1) * J = A + 1 := ⟨(s + 1) * J - 1, by omega⟩
  rw [hAe, Nat.add_sub_cancel] at h
  have h1 : x * (J * J) ≤ (s * s + s) * (J * J) := Nat.mul_le_mul_right _ hx2
  have h2 : (A + 1) * (A + 1) = ((s + 1) * J) * ((s + 1) * J) := by rw [hAe]
  nlinarith

theorem round_down_excluded (s x J d : Nat) (hx : x + d = s * s) (hd : d * J + 1 ≤ 2 * s)
    (hJ : 1 ≤ J) : (s * J - 1) ^ 2 ≤ x * (J * J) := by
  have hs : 1 ≤ s := by omega
  have hA : 1 ≤ s * J := by nlinarith
  obtain ⟨A, hAe⟩ : ∃ A, s * J = A + 1 := ⟨s * J - 1, by omega⟩
  rw [hAe, Nat.add_sub_cancel]
  have h1 : (d * J + 1) * J ≤ 2 * s * J := Nat.mul_le_mul_right _ hd
  have h2 : (A + 1) * (A + 1) = (s * J) * (s * J) := by rw [hAe]
  have h3 : (x + d) * (J * J) = s * s * (J * J) := by rw [hx]
  nlinarith

theorem four_pow (j : Nat) : (4 : Nat) ^ j = 2 ^ j * 2 ^ j := by
  have : (4 : Nat) = 2 * 2 := rfl
  rw [this, mul_pow]

theorem float64OfNat_pow_four (k : Nat) (hk : k ≤ 31) :
    float64OfNat (2 ^ k * 2 ^ k) = 2 ^ k * 2 ^ k := by
  interval_cases k <;> decide

/-- On the square of `s`, below `2 ^ 63`, the rounded square root of the rounded
square is `s`. -/
theorem floorSqrtFloat_square (s : Nat) (hs : s * s < 2 ^ 63) :
    floorSqrtFloat (float64OfNat (s * s)) = s := by
  have hs32 : s < 2 ^ 32 := by
    by_contra hge
    have hge' : 2 ^ 32 ≤ s := by omega
    have := Nat.mul_le_mul hge' hge'
    omega
  have hss : s * s ≤ s * 2 ^ 32 := Nat.mul_le_mul_left s (by omega)
  obtain ⟨hA, hx1, hx2⟩ := float64OfNat_error (s * s) hs
  have hsq1 : (s + 1) * (s + 1) = s * s + 2 * s + 1 := by ring
  generalize hx : float64OfNat (s * s) = x at hA hx1 hx2
  have hx64 : x < 2 ^ 64 := by omega
  obtain ⟨hr1, hr2⟩ := intSqrt_spec x hx64
  unfold floorSqrtFloat
  simp only
  rcases Nat.lt_trichotomy x (s * s) with hlt | heq | hgt
  · -- rounded down
    have hs1 : 1 ≤ s := by
      by_contra h0
      have : s = 0 := by omega
      subst this
      omega
    obtain ⟨p, rfl⟩ : ∃ p, s = p + 1 := ⟨s - 1, by omega⟩
    have hp2 : (p + 1) * (p + 1) = p * p + 2 * p + 1 := by ring
    have hr : intSqrt x = p := by
      apply sqrt_unique x _ _ hr1 hr2
      · omega
      · omega
    rw [hr]
    have hne : ¬ (p * p = x) := by omega
    rw [if_neg hne]
    obtain ⟨hk1, hk2⟩ := leadingBit_spec 64 (p + 1) (by omega)
      (lt_of_lt_of_le hs32 (Nat.pow_le_pow_right (by norm_num) (by norm_num)))
    generalize leadingBit 64 (p + 1) = k at hk1 hk2
    have hk31 : k ≤ 31 := by
      have hlt' : (2 : Nat) ^ k < 2 ^ 32 := lt_of_le_of_lt hk1 hs32
      have := (Nat.pow_lt_pow_iff_right (by norm_num : 1 < 2)).mp hlt'
      omega
    by_cases hpow : p + 1 = 2 ^ k
    · exfalso
      have := float64OfNat_pow_four k hk31
      rw [← hpow, hx] at this
      omega
    · rw [if_neg hpow, four_pow]
      have hgoal := round_down_excluded (p + 1) x (2 ^ (53 - k)) ((p + 1) * (p + 1) - x)
        (by omega)
        (by
          have hJ : 2 ^ (53 - k) * 2 ^ k = 2 ^ 53 := by
            rw [← pow_add]
            congr 1
            omega
          have hd : 2 ^ 53 * ((p + 1) * (p + 1) - x) ≤ (p + 1) * (p + 1) := hx2
          have hk2' : p + 1 < 2 ^ k * 2 := by
            rw [pow_succ] at hk2
            exact hk2
          have h1 : (p + 1) * (p + 1) < (p + 1) * (2 ^ k * 2) :=
            Nat.mul_lt_mul_of_pos_left hk2' (by omega)
          have h2 : ((p + 1) * (p + 1) - x) * 2 ^ (53 - k) * 2 ^ k < 2 * (p + 1) * 2 ^ k := by
            calc ((p + 1) * (p + 1) - x) * 2 ^ (53 - k) * 2 ^ k
                = 2 ^ 53 * ((p + 1) * (p + 1) - x) := by
                  rw [mul_assoc, hJ, mul_comm]
              _ ≤ (p + 1) * (p + 1) := hd
              _ < (p + 1) * (2 ^ k * 2) := h1
              _ = 2 * (p + 1) * 2 ^ k := by ring
          have h3 := Nat.lt_of_mul_lt_mul_right h2
          omega)
        (Nat.one_le_two_pow)
      rw [if_pos hgoal]
  · -- exact
    have hr : intSqrt x = s := by
      apply sqrt_unique x _ _ hr1 hr2
      · omega
      · omega
    rw [hr, if_pos heq.symm]
  · -- rounded up
    have hr : intSqrt x = s := by
      apply sqrt_unique x _ _ hr1 hr2
      · omega
      · omega
    rw [hr]
    have hne : ¬ (s * s = x) := by omega
    rw [if_neg hne]
    obtain ⟨hk1, hk2⟩ := leadingBit_spec 64 (s + 1) (by omega)
      (lt_of_le_of_lt (by omega : s + 1 ≤ 2 ^ 32)
        (Nat.pow_lt_pow_right (by norm_num) (by norm_num)))
    generalize leadingBit 64 (s + 1) = k at hk1 hk2
    have hk32 : k ≤ 32 := by
      have hlt' : (2 : Nat) ^ k < 2 ^ 33 :=
        lt_of_le_of_lt hk1 (lt_of_le_of_lt (by omega : s + 1 ≤ 2 ^ 32)
          (Nat.pow_lt_pow_right (by norm_num) (by norm_num)))
      have := (Nat.pow_lt_pow_iff_right (by norm_num : 1 < 2)).mp hlt'
      omega
    have hJ : ∀ j, 1 ≤ j → 2 ≤ 2 ^ j := by
      intro j hj
      calc 2 = 2 ^ 1 := by norm_num
        _ ≤ 2 ^ j := Nat.pow_le_pow_right (by norm_num) hj
    have hnot : ¬ (((s + 1) * 2 ^ (if s + 1 = 2 ^ k then 54 - k else 53 - k) - 1) ^ 2 ≤
        x * 4 ^ (if s + 1 = 2 ^ k then 54 - k else 53 - k)) := by
      rw [four_pow]
      apply round_up_excluded
      · apply hJ
        split_ifs <;> omega
      · omega
    rw [if_neg hnot]

/-! ## The function `isPerfectSquare` -/

theorem isSquareNumber_iff (v : Nat) : isSquareNumber v = true ↔ ∃ s, s * s = v := by
  unfold isSquareNumber
  simp only [List.any_eq_true, List.mem_range, beq_iff_eq]
  constructor
  · rintro ⟨s, _, h⟩
    exact ⟨s, h⟩
  · rintro ⟨s, h⟩
    refine ⟨s, ?_, h⟩
    have : s ≤ s * s := Nat.le_mul_self s
    omega

theorem floorSqrtFloat_le (x : Nat) : floorSqrtFloat x ≤ intSqrt x + 1 := by
  unfold floorSqrtFloat
  simp only
  split_ifs <;> omega

/-- Below `2 ^ 63`, `isPerfectSquare` holds exactly of the squares. -/
theorem isPerfectSquare_iff (n : Nat) (hn : n < 2 ^ 63) :
    isPerfectSquare (n : Int) = true ↔ ∃ s, s * s = n := by
  have hneg : ¬ ((n : Int) < 0) := by omega
  unfold isPerfectSquare
  simp only [hneg, if_false, Int.toNat_ofNat, decide_eq_true_eq]
  constructor
  · intro h
    obtain ⟨_, hx1, _⟩ := float64OfNat_error n hn
    have hx64 : float64OfNat n < 2 ^ 64 := by omega
    obtain ⟨hr1, _⟩ := intSqrt_spec _ hx64
    have hle := floorSqrtFloat_le (float64OfNat n)
    have hr : intSqrt (float64OfNat n) ≤ 3037000499 := by
      by_contra hgt
      have hge : 3037000500 ≤ intSqrt (float64OfNat n) := by omega
      have := Nat.mul_le_mul hge hge
      omega
    have hq : floorSqrtFloat (float64OfNat n) ≤ 3037000500 := by omega
    have hqq := Nat.mul_le_mul hq hq
    refine ⟨floorSqrtFloat (float64OfNat n), ?_⟩
    have hcast : ((floorSqrtFloat (float64OfNat n) : Int) *
        (floorSqrtFloat (float64OfNat n) : Int)) =
        ((floorSqrtFloat (float64OfNat n) * floorSqrtFloat (float64OfNat n) : Nat) : Int) := by
      push_cast
      rfl
    rw [hcast] at h
    generalize floorSqrtFloat (float64OfNat n) * floorSqrtFloat (float64OfNat n) = v at h hqq
    unfold wrap64 at h
    omega
  · rintro ⟨s, rfl⟩
    rw [floorSqrtFloat_square s hn]
    have hcast : ((s : Int) * (s : Int)) = ((s * s : Nat) : Int) := by
      push_cast
      rfl
    rw [hcast]
    apply wrap64_of_range <;> omega

/-! ## The handler `countPerfectSquares` -/

theorem foldl_flatten {α β γ : Type} (f : γ → β → γ) (g : α → List β) (l : List α) (c : γ) :
    l.foldl (fun c s => (g s).foldl f c) c = ((l.map g).flatten).foldl f c := by
  induction l generalizing c with
  | nil => rfl
  | cons a t ih =>
    simp only [List.foldl_cons, List.map_cons, List.flatten_cons, List.foldl_append, ih]

theorem digitRunsAux_runs (s : GoString) :
    ∀ cur, (∀ b ∈ cur, unicode.IsDigit b = true) →
      ∀ m ∈ digitRunsAux s cur, m ≠ [] ∧ ∀ b ∈ m, unicode.IsDigit b = true := by
  induction s with
  | nil =>
    intro cur hcur m hm
    simp only [digitRunsAux] at hm
    split_ifs at hm with h
    · simp at hm
    · simp only [List.mem_singleton] at hm
      subst hm
      exact ⟨h, hcur⟩
  | cons a t ih =>
    intro cur hcur m hm
    simp only [digitRunsAux] at hm
    split_ifs at hm with h1 h2
    · refine ih (cur ++ [a]) ?_ m hm
      intro b hb
      simp only [List.mem_append, List.mem_singleton] at hb
      rcases hb with hb | rfl
      · exact hcur b hb
      · simp only [unicode.IsDigit, decide_eq_true_eq]
        omega
    · exact ih [] (by simp) m hm
    · simp only [List.mem_cons] at hm
      rcases hm with rfl | hm
      · exact ⟨h2, hcur⟩
      · exact ih [] (by simp) m hm

theorem findAllDigits_runs (s : GoString) :
    ∀ m ∈ findAllDigits s, m ≠ [] ∧ ∀ b ∈ m, unicode.IsDigit b = true :=
  digitRunsAux_runs s [] (by simp)

theorem digitRunsAux_digits (s : GoString) (hs : ∀ b ∈ s, unicode.IsDigit b = true) :
    ∀ cur, digitRunsAux s cur = if cur ++ s = [] then [] else [cur ++ s] := by
  induction s with
  | nil =>
    intro cur
    simp [digitRunsAux]
  | cons a t ih =>
    intro cur
    have ha : 48 ≤ a ∧ a ≤ 57 := by
      have := hs a (List.mem_cons_self _ _)
      simpa [unicode.IsDigit] using this
    simp only [digitRunsAux, ha, and_self, if_true]
    rw [ih (fun b hb => hs b (List.mem_cons_of_mem _ hb))]
    simp

theorem findAllDigits_natDigits (n : Nat) : findAllDigits (natDigits n) = [natDigits n] := by
  unfold findAllDigits
  rw [digitRunsAux_digits _ (natDigits_isDigit n)]
  simp [natDigits_ne_nil]

theorem run_counted (m : GoString) (hne : m ≠ []) (hm : ∀ b ∈ m, unicode.IsDigit b = true) :
    (decide ((strconv.Atoi m).2 = false) && isPerfectSquare (strconv.Atoi m).1) =
      (decide (digitsValue m < 2 ^ 63) && isSquareNumber (digitsValue m)) := by
  rw [atoi_digits m hne hm]
  by_cases h63 : digitsValue m < 2 ^ 63
  · rw [if_pos h63]
    have h1 : isPerfectSquare (digitsValue m : Int) = isSquareNumber (digitsValue m) := by
      rw [Bool.eq_iff_iff, isPerfectSquare_iff _ h63, isSquareNumber_iff]
    simp only [decide_True, Bool.true_and, h1]
    have hd : decide (digitsValue m < 2 ^ 63) = true := by
      simp only [decide_eq_true_eq]
      exact h63
    rw [hd, Bool.true_and]
  · rw [if_neg h63]
    have hd : decide (digitsValue m < 2 ^ 63) = false := by
      simp only [decide_eq_false_iff_not]
      exact h63
    rw [hd]
    simp

theorem countPerfectSquares_eq (command : GoString) (args : List GoString) (hne : args ≠ []) :
    countPerfectSquares (command :: args) =
      str "Perfect squares count: " ++
        natDigits ((digitRuns args).filter fun m =>
          decide (digitsValue m < 2 ^ 63) && isSquareNumber (digitsValue m)).length := by
  have hlen : ¬ (command :: args).length < 2 := by
    have := List.length_pos.mpr hne
    simp only [List.length_cons]
    omega
  unfold countPerfectSquares
  rw [if_neg hlen]
  simp only [List.drop_succ_cons, List.drop_zero]
  rw [foldl_flatten (fun count m =>
      if (decide ((strconv.Atoi m).2 = false) && isPerfectSquare (strconv.Atoi m).1) = true
      then count + 1 else count) findAllDigits args 0,
    foldl_count, itoa_natCast, Nat.zero_add]
  unfold digitRuns
  congr 3
  apply List.filter_congr
  intro m hm
  simp only [List.mem_flatten, List.mem_map] at hm
  obtain ⟨l, ⟨s, _, rfl⟩, hml⟩ := hm
  obtain ⟨h1, h2⟩ := findAllDigits_runs s m hml
  exact run_counted m h1 h2

theorem processRequest_countPerfectSquares (request : GoString) (args : List GoString)
    (hf : strings.Fields request = str "countPerfectSquares" :: args) :
    processRequest request = some (countPerfectSquares (str "countPerfectSquares" :: args)) := by
  have h1 : str "countPerfectSquares" ≠ str "createWords" := by decide
  unfold processRequest
  rw [hf]
  simp only [h1, if_false, if_true]

/-- C20: for a request `countPerfectSquares t_1 ... t_k` with `k ≥ 1` in which every
maximal run of ASCII digits of the fields `t_i` denotes a value below `2 ^ 63`, the
answer is `Perfect squares count: c`, `c` being the number of those runs (taken
field by field, leading zeros allowed, 0 being a square) whose value is a square. -/
theorem countPerfectSquares_counts_runs (request : GoString) (args : List GoString)
    (hf : strings.Fields request = str "countPerfectSquares" :: args) (hne : args ≠ [])
    (hruns : ∀ m ∈ digitRuns args, digitsValue m < 2 ^ 63) :
    processRequest request =
      some (str "Perfect squares count: " ++
        natDigits ((digitRuns args).filter fun m => isSquareNumber (digitsValue m)).length) := by
  rw [processRequest_countPerfectSquares request args hf, countPerfectSquares_eq _ args hne]
  congr 4
  apply List.filter_congr
  intro m hm
  have hd : decide (digitsValue m < 2 ^ 63) = true := by
    simp only [decide_eq_true_eq]
    exact hruns m hm
  rw [hd, Bool.true_and]

theorem countPerfectSquares_counts_runs_witness :
    (strings.Fields (str "countPerfectSquares 16 17 a25b007 x-0") =
        str "countPerfectSquares" :: [str "16", str "17", str "a25b007", str "x-0"] ∧
      [str "16", str "17", str "a25b007", str "x-0"] ≠ [] ∧
      ∀ m ∈ digitRuns [str "16", str "17", str "a25b007", str "x-0"],
        digitsValue m < 2 ^ 63) ∧
    digitRuns [str "16", str "17", str "a25b007", str "x-0"] =
      [str "16", str "17", str "25", str "007", str "0"] ∧
    natDigits ((digitRuns [str "16", str "17", str "a25b007", str "x-0"]).filter
      fun m => isSquareNumber (digitsValue m)).length = str "3" ∧
    processRequest (str "countPerfectSquares 16 17 a25b007 x-0") =
      some (str "Perfect squares count: " ++
        natDigits ((digitRuns [str "16", str "17", str "a25b007", str "x-0"]).filter
          fun m => isSquareNumber (digitsValue m)).length) :=
  ⟨⟨by decide, by decide, by decide⟩, by decide, by decide,
    countPerfectSquares_counts_runs (str "countPerfectSquares 16 17 a25b007 x-0")
      [str "16", str "17", str "a25b007", str "x-0"] (by decide) (by decide) (by decide)⟩

/-- C11, as stated, fails for a large square: `18446744073709551616` is the square of
`4294967296`, yet the request is answered with the count 0, the number being beyond
`int`. -/
theorem countPerfectSquares_misses_large_square :
    natDigits (4294967296 * 4294967296) = str "18446744073709551616" ∧
    processRequest (str "countPerfectSquares 18446744073709551616") =
      some (str "Perfect squares count: 0") := by
  decide

/-- C11, amended: for every natural number `n`, the request `countPerfectSquares`
followed by the decimal numeral of `n` is answered `Perfect squares count: 1` when
`n < 2 ^ 63` and `n` is a perfect square (`sqrt n * sqrt n = n`), and
`Perfect squares count: 0` otherwise; `countPerfectSquares 16 17` gives the
count 1. -/
theorem countPerfectSquares_number (n : Nat) :
    processRequest (str "countPerfectSquares " ++ natDigits n) =
      some (str "Perfect squares count: " ++
        if n < 2 ^ 63 ∧ Nat.sqrt n * Nat.sqrt n = n then str "1" else str "0") ∧
    processRequest (str "countPerfectSquares 16 17") =
      some (str "Perfect squares count: 1") := by
  refine ⟨?_, by set_option maxRecDepth 4000 in decide⟩
  have hsplit : str "countPerfectSquares " ++ natDigits n =
      str "countPerfectSquares" ++ 32 :: natDigits n := by
    have : str "countPerfectSquares " = str "countPerfectSquares" ++ [32] := by decide
    rw [this]
    simp
  have hbytes : ∀ b ∈ natDigits n, b < 0x80 ∧ unicode.IsSpace b = false := by
    intro b hb
    have := natDigits_isDigit n b hb
    simp only [unicode.IsDigit, decide_eq_true_eq] at this
    refine ⟨by omega, ?_⟩
    simp only [unicode.IsSpace, decide_eq_false_iff_not]
    omega
  have hfields : strings.Fields (str "countPerfectSquares " ++ natDigits n) =
      [str "countPerfectSquares", natDigits n] := by
    rw [hsplit]
    exact fields_two_words _ _ (by decide) (by decide) hbytes (natDigits_ne_nil n)
  rw [processRequest_countPerfectSquares _ _ hfields,
    countPerfectSquares_eq _ [natDigits n] (by simp)]
  have hruns : digitRuns [natDigits n] = [natDigits n] := by
    unfold digitRuns
    simp [findAllDigits_natDigits]
  rw [hruns, List.filter_cons, digitsValue_natDigits]
  by_cases h : n < 2 ^ 63 ∧ Nat.sqrt n * Nat.sqrt n = n
  · have hsq : isSquareNumber n = true := by
      rw [isSquareNumber_iff]
      exact (Nat.exists_mul_self n).mpr h.2
    have hd : decide (n < 2 ^ 63) = true := by
      simp only [decide_eq_true_eq]
      exact h.1
    rw [if_pos h, hd, hsq]
    rfl
  · rw [if_neg h]
    have hfalse : (decide (n < 2 ^ 63) && isSquareNumber n) = false := by
      by_contra hne
      simp only [Bool.not_eq_false, Bool.and_eq_true, decide_eq_true_eq] at hne
      exact h ⟨hne.1, (Nat.exists_mul_self n).mp ((isSquareNumber_iff n).mp hne.2)⟩
    rw [hfalse]
    rfl

end GoTcp
